import Mathlib

/-!
Verification of elliptic_curve_ops: modular exponentiation and curve point
arithmetic.

A shallow embedding of `src/elliptic_curve_ops.cpp`.

* The program is modelled three times.  The first model reads `int512_t` as
  the mathematical integers (`Int`): it is the program as long as no
  intermediate value reaches `2^512` in magnitude and the modulus is not
  zero.  The C++ operators `%` and `/` truncate towards zero, so they are
  `Int.tmod` and `Int.tdiv`; in particular `%` may return a negative number
  for a negative dividend, which is what the `if (x < 0) x += mod` lines of
  the source repair.
* The second model (names ending in `512`) checks every intermediate result
  against the range of its type and shows that nothing overflows for a field
  of at most 256 bits (`int512_suffices`).
* The third model (names ending in `_t`) is the program on the fixed-width
  type itself: results of `+`, `-`, `*` are truncated to 512 bits of
  magnitude and `%` by zero throws.  The statements about modular arithmetic,
  doubling, addition and scalar multiplication that depend on magnitudes are
  proved of this model, on the domain where it agrees with the first one, and
  refuted on it outside that domain.
* Member functions that mutate `*this` return the new value of the object.
* The two `while` loops halve a positive integer on every turn.  They are
  written as structural recursions on a turn budget that is set to the value
  of the integer being halved, which the loop provably never exhausts
  (`modulo_power_loop_budget`, `scalarMult_loop_budget`).
-/

set_option autoImplicit false

/-! ## Modular arithmetic -/

/-- The `while (exponent > 0)` loop of `modulo_power`.  The first argument
bounds the number of turns; `v`, `a` and `counter` are the loop variables. -/
def modulo_power_loop (base mod : Int) : Nat → Int → Int → Int → Nat → Int
  | 0, _, _, a, _ => a
  | fuel + 1, exponent, v, a, counter =>
    if 0 < exponent then
      let v1 := if counter = 0 then base.tmod mod
                else ((v.tmod mod) * (v.tmod mod)).tmod mod
      let a1 := if exponent.tmod 2 = 1 then ((a.tmod mod) * (v1.tmod mod)).tmod mod else a
      modulo_power_loop base mod fuel (exponent.tdiv 2) v1 a1 (counter + 1)
    else a

/-- `int512_t modulo_power(int512_t base, int512_t exponent, int512_t mod)`:
`v` starts as a default-constructed `int512_t` (zero), `a` as `1`. -/
def modulo_power (base exponent mod : Int) : Int :=
  let a := modulo_power_loop base mod exponent.toNat exponent 0 1 0
  if a < 0 then a + mod else a

/-- `int512_t modulo_inverse(int512_t v, int512_t mod)`. -/
def modulo_inverse (v mod : Int) : Int :=
  modulo_power v (mod - 2) mod

/-! ## Points -/

/-- `class el_point`: coordinates and the flag `state`, which is `false` for
the point at infinity. -/
structure el_point where
  x : Int
  y : Int
  state : Bool
deriving DecidableEq, Repr

/-- The default constructor `el_point()`: the point at infinity. -/
def el_point.infinity : el_point := ⟨0, 0, false⟩

/-- The constructor `el_point(_x, _y)`: an affine point. -/
def el_point.affine (x y : Int) : el_point := ⟨x, y, true⟩

/-- `void el_point::doubler(int512_t a, int512_t mod)`; the value returned is
the object after the call. -/
def el_point.doubler (self : el_point) (a mod : Int) : el_point :=
  if !self.state then self
  else
    let num := (3 * modulo_power self.x 2 mod + a).tmod mod
    let num := if num < 0 then num + mod else num
    let denom := modulo_inverse (2 * self.y) mod
    let c := ((num.tmod mod) * (denom.tmod mod)).tmod mod
    let newx := (c * c - 2 * self.x).tmod mod
    let newx := if newx < 0 then newx + mod else newx
    let newy := (c * (self.x - newx) - self.y).tmod mod
    let newy := if newy < 0 then newy + mod else newy
    { self with x := newx, y := newy }

/-- `void el_point::adder(const el_point & q, int512_t mod)`; the value
returned is the object after the call. -/
def el_point.adder (self q : el_point) (mod : Int) : el_point :=
  if !q.state then self
  else if !self.state then { x := q.x, y := q.y, state := true }
  else
    let num := (q.y - self.y).tmod mod
    let num := if num < 0 then num + mod else num
    let denom := modulo_inverse (q.x - self.x) mod
    let denom := if denom < 0 then denom + mod else denom
    let c := ((num.tmod mod) * (denom.tmod mod)).tmod mod
    let newx := (c * c - self.x - q.x).tmod mod
    let newx := if newx < 0 then newx + mod else newx
    let newy := (c * (self.x - newx) - self.y).tmod mod
    let newy := if newy < 0 then newy + mod else newy
    { self with x := newx, y := newy }

/-! ## Curves -/

/-- `class el_curve_ops`: the curve `y^2 = x^3 + a x + b` over the integers
modulo `mod`. -/
structure el_curve_ops where
  a : Int
  b : Int
  mod : Int
deriving DecidableEq, Repr

/-- The `while (privkey > 0)` loop of `scalarMult`, returning `result`.  The
first argument bounds the number of turns. -/
def scalarMult_loop (a mod : Int) : Nat → Int → el_point → el_point → el_point
  | 0, _, _, result => result
  | fuel + 1, privkey, v, result =>
    if 0 < privkey then
      let v1 := v.doubler a mod
      let result1 := if privkey.tmod 2 = 1 then result.adder v1 mod else result
      scalarMult_loop a mod fuel (privkey.tdiv 2) v1 result1
    else result

/-- `el_point el_curve_ops::scalarMult(int512_t privkey, const el_point & key)`. -/
def el_curve_ops.scalarMult (c : el_curve_ops) (privkey : Int) (key : el_point) : el_point :=
  if !key.state then key
  else
    let v := key
    let result := if privkey.tmod 2 = 1 then v else el_point.infinity
    let privkey1 := privkey.tdiv 2
    scalarMult_loop c.a c.mod privkey1.toNat privkey1 v result

/-- `bool el_curve_ops::verify(const el_point & v)`. -/
def el_curve_ops.verify (c : el_curve_ops) (v : el_point) : Bool :=
  let lhs := modulo_power v.y 2 c.mod
  let rhs1 := modulo_power v.x 3 c.mod
  let rhs := (rhs1 + (c.a * v.x + c.b)).tmod c.mod
  decide (lhs = rhs)

/-- The point `P` satisfies the curve equation of `c` modulo `c.mod`. -/
def el_curve_ops.on_curve (c : el_curve_ops) (P : el_point) : Prop :=
  P.y ^ 2 ≡ P.x ^ 3 + c.a * P.x + c.b [ZMOD c.mod]

/-- A call made by `scalarMult`: `v.doubler(a, mod)` or `result.adder(v, mod)`. -/
inductive point_op where
  | doubling
  | addition
deriving DecidableEq, Repr

/-- The loop of `scalarMult` with the log of its `doubler` and `adder` calls. -/
def scalarMult_loop_traced (a mod : Int) :
    Nat → Int → el_point → el_point → List point_op → el_point × List point_op
  | 0, _, _, result, log => (result, log)
  | fuel + 1, privkey, v, result, log =>
    if 0 < privkey then
      let v1 := v.doubler a mod
      let log1 := log ++ [point_op.doubling]
      if privkey.tmod 2 = 1 then
        scalarMult_loop_traced a mod fuel (privkey.tdiv 2) v1 (result.adder v1 mod)
          (log1 ++ [point_op.addition])
      else
        scalarMult_loop_traced a mod fuel (privkey.tdiv 2) v1 result log1
    else (result, log)

/-- The function `scalarMult` with the log of its `doubler` and `adder` calls. -/
def el_curve_ops.scalarMult_traced (c : el_curve_ops) (privkey : Int) (key : el_point) :
    el_point × List point_op :=
  if !key.state then (key, [])
  else
    let v := key
    let result := if privkey.tmod 2 = 1 then v else el_point.infinity
    let privkey1 := privkey.tdiv 2
    scalarMult_loop_traced c.a c.mod privkey1.toNat privkey1 v result []

/-! ## Regular runs

A run of `scalarMult` is regular when no `doubler` call meets a point whose
`y` is divisible by the modulus and no `adder` call meets two affine points
whose `x` coordinates are congruent: the inputs on which the slope formulas
of the source divide by an invertible residue. -/

/-- Regularity of the loop of `scalarMult` from the loop state
`(privkey, v, result)`. -/
def scalarMult_loop_regular (a mod : Int) : Nat → Int → el_point → el_point → Bool
  | 0, _, _, _ => true
  | fuel + 1, privkey, v, result =>
    if 0 < privkey then
      let v1 := v.doubler a mod
      let result1 := if privkey.tmod 2 = 1 then result.adder v1 mod else result
      decide (v.y % mod ≠ 0) &&
        (if privkey.tmod 2 = 1 ∧ result.state = true
          then decide ((v1.x - result.x) % mod ≠ 0) else true) &&
        scalarMult_loop_regular a mod fuel (privkey.tdiv 2) v1 result1
    else true

/-- Regularity of the run `scalarMult(privkey, key)`. -/
def el_curve_ops.scalarMult_regular (c : el_curve_ops) (privkey : Int) (key : el_point) : Bool :=
  let result := if privkey.tmod 2 = 1 then key else el_point.infinity
  let privkey1 := privkey.tdiv 2
  scalarMult_loop_regular c.a c.mod privkey1.toNat privkey1 key result

/-! ## The reference curve

The curve `y^2 = x^3 + a x + b` over the field `ZMod p`, whose points carry
the chord-and-tangent group law of Mathlib. -/

/-- The Weierstrass curve over `ZMod p` with the coefficients of `c`. -/
def el_curve_ops.weierstrass (c : el_curve_ops) (p : Nat) : WeierstrassCurve (ZMod p) :=
  ⟨0, 0, 0, (c.a : ZMod p), (c.b : ZMod p)⟩

instance fact_prime_five : Fact (Nat.Prime 5) := ⟨by norm_num⟩

/-! ## Fixed-width arithmetic

The same functions with every arithmetic result checked against the range of
its C++ type: a value of `int512_t` has magnitude below `2^512`, and the
`int counter` of `modulo_power` stays below `2^31`.  A computation returns
`none` as soon as one intermediate result leaves the range, and otherwise the
value the fixed-width program computes. -/

/-- The integer `z` is representable in `int512_t`. -/
def int512_fits (z : Int) : Prop := -(2 ^ 512) < z ∧ z < 2 ^ 512

/-- An `int512_t` result: `z` itself when it is representable. -/
def ck512 (z : Int) : Option Int :=
  if -(2 ^ 512) < z ∧ z < 2 ^ 512 then some z else none

/-- An `int` result: `n` itself when it is representable. -/
def ck_int (n : Nat) : Option Nat :=
  if n < 2 ^ 31 then some n else none

/-- The loop of `modulo_power` on fixed-width integers. -/
def modulo_power_loop512 (base mod : Int) : Nat → Int → Int → Int → Nat → Option Int
  | 0, _, _, a, _ => some a
  | fuel + 1, exponent, v, a, counter =>
    if 0 < exponent then do
      let v1 ← (if counter = 0 then ck512 (base.tmod mod)
        else do
          let t1 ← ck512 (v.tmod mod)
          let t2 ← ck512 (v.tmod mod)
          let sq ← ck512 (t1 * t2)
          ck512 (sq.tmod mod))
      let r ← ck512 (exponent.tmod 2)
      let a1 ← (if r = 1 then do
          let s1 ← ck512 (a.tmod mod)
          let s2 ← ck512 (v1.tmod mod)
          let pr ← ck512 (s1 * s2)
          ck512 (pr.tmod mod)
        else some a)
      let exponent1 ← ck512 (exponent.tdiv 2)
      let counter1 ← ck_int (counter + 1)
      modulo_power_loop512 base mod fuel exponent1 v1 a1 counter1
    else some a

/-- The function `modulo_power` on fixed-width integers. -/
def modulo_power512 (base exponent mod : Int) : Option Int := do
  let a ← modulo_power_loop512 base mod exponent.toNat exponent 0 1 0
  if a < 0 then ck512 (a + mod) else some a

/-- The function `modulo_inverse` on fixed-width integers. -/
def modulo_inverse512 (v mod : Int) : Option Int := do
  let e ← ck512 (mod - 2)
  modulo_power512 v e mod

/-- The source line `if (t < 0) t += mod;` on fixed-width integers. -/
def fix_sign512 (t mod : Int) : Option Int :=
  if t < 0 then ck512 (t + mod) else some t

/-- The numerator of `doubler`, `(3 * modulo_power(x, 2, mod) + a) % mod`
followed by the sign fix, on fixed-width integers. -/
def doubler_num512 (x a mod : Int) : Option Int := do
  let p2 ← modulo_power512 x 2 mod
  let t3 ← ck512 (3 * p2)
  let s ← ck512 (t3 + a)
  let num ← ck512 (s.tmod mod)
  fix_sign512 num mod

/-- The numerator of `adder`, `(q.y - y) % mod` followed by the sign fix, on
fixed-width integers. -/
def adder_num512 (y qy mod : Int) : Option Int := do
  let dy ← ck512 (qy - y)
  let num ← ck512 (dy.tmod mod)
  fix_sign512 num mod

/-- The slope `((num % mod) * (denom % mod)) % mod` on fixed-width integers. -/
def slope512 (num denom mod : Int) : Option Int := do
  let n1 ← ck512 (num.tmod mod)
  let d1 ← ck512 (denom.tmod mod)
  let pr ← ck512 (n1 * d1)
  ck512 (pr.tmod mod)

/-- The new `x` of `doubler`, `(c * c - 2 * x) % mod` followed by the sign
fix, on fixed-width integers. -/
def doubler_newx512 (c x mod : Int) : Option Int := do
  let cc ← ck512 (c * c)
  let x2 ← ck512 (2 * x)
  let dx ← ck512 (cc - x2)
  let newx ← ck512 (dx.tmod mod)
  fix_sign512 newx mod

/-- The new `x` of `adder`, `(c * c - x - q.x) % mod` followed by the sign
fix, on fixed-width integers. -/
def adder_newx512 (c x qx mod : Int) : Option Int := do
  let cc ← ck512 (c * c)
  let t ← ck512 (cc - x)
  let u ← ck512 (t - qx)
  let newx ← ck512 (u.tmod mod)
  fix_sign512 newx mod

/-- The new `y` of `doubler` and `adder`, `(c * (x - newx) - y) % mod`
followed by the sign fix, on fixed-width integers. -/
def newy512 (c x newx y mod : Int) : Option Int := do
  let d ← ck512 (x - newx)
  let cd ← ck512 (c * d)
  let e ← ck512 (cd - y)
  let newy ← ck512 (e.tmod mod)
  fix_sign512 newy mod

/-- The member function `doubler` on fixed-width integers. -/
def el_point.doubler512 (self : el_point) (a mod : Int) : Option el_point :=
  if !self.state then some self
  else do
    let num ← doubler_num512 self.x a mod
    let y2 ← ck512 (2 * self.y)
    let denom ← modulo_inverse512 y2 mod
    let c ← slope512 num denom mod
    let newx ← doubler_newx512 c self.x mod
    let newy ← newy512 c self.x newx self.y mod
    some { self with x := newx, y := newy }

/-- The member function `adder` on fixed-width integers. -/
def el_point.adder512 (self q : el_point) (mod : Int) : Option el_point :=
  if !q.state then some self
  else if !self.state then some { x := q.x, y := q.y, state := true }
  else do
    let num ← adder_num512 self.y q.y mod
    let dx ← ck512 (q.x - self.x)
    let denom ← modulo_inverse512 dx mod
    let denom ← fix_sign512 denom mod
    let c ← slope512 num denom mod
    let newx ← adder_newx512 c self.x q.x mod
    let newy ← newy512 c self.x newx self.y mod
    some { self with x := newx, y := newy }

/-! ## Truncating arithmetic

What the program computes on `int512_t`, the unchecked fixed-precision Boost
type: a sign and a magnitude of 512 bits.  The result of `+`, `-` and `*` keeps
its sign and the low 512 bits of its magnitude (`wrap512`); `%` is the
truncating remainder and throws on a zero divisor, which is the result `none`
here.  The loop variable `counter` is an `int` that never exceeds the number
of bits of the exponent. -/

/-- The value an `int512_t` holds after an arithmetic result `z`: the sign of
`z` and its magnitude modulo `2^512`. -/
def wrap512 (z : Int) : Int := z.tmod (2 ^ 512)

/-- The operator `%` of `int512_t`: it throws when the divisor is zero. -/
def mod512 (x m : Int) : Option Int := if m = 0 then none else some (x.tmod m)

/-- The loop of `modulo_power` on `int512_t`. -/
def modulo_power_loop_t (base mod : Int) : Nat → Int → Int → Int → Nat → Option Int
  | 0, _, _, a, _ => some a
  | fuel + 1, exponent, v, a, counter =>
    if 0 < exponent then do
      let v1 ← (if counter = 0 then mod512 base mod
        else do
          let t1 ← mod512 v mod
          let t2 ← mod512 v mod
          mod512 (wrap512 (t1 * t2)) mod)
      let a1 ← (if exponent.tmod 2 = 1 then do
          let s1 ← mod512 a mod
          let s2 ← mod512 v1 mod
          mod512 (wrap512 (s1 * s2)) mod
        else some a)
      modulo_power_loop_t base mod fuel (exponent.tdiv 2) v1 a1 (counter + 1)
    else some a

/-- The function `modulo_power` on `int512_t`. -/
def modulo_power_t (base exponent mod : Int) : Option Int := do
  let a ← modulo_power_loop_t base mod exponent.toNat exponent 0 1 0
  some (if a < 0 then wrap512 (a + mod) else a)

/-- The function `modulo_inverse` on `int512_t`. -/
def modulo_inverse_t (v mod : Int) : Option Int :=
  modulo_power_t v (wrap512 (mod - 2)) mod

/-- The member function `doubler` on `int512_t`. -/
def el_point.doubler_t (self : el_point) (a mod : Int) : Option el_point :=
  if !self.state then some self
  else do
    let p2 ← modulo_power_t self.x 2 mod
    let num ← mod512 (wrap512 (wrap512 (3 * p2) + a)) mod
    let num := if num < 0 then wrap512 (num + mod) else num
    let denom ← modulo_inverse_t (wrap512 (2 * self.y)) mod
    let n1 ← mod512 num mod
    let d1 ← mod512 denom mod
    let c ← mod512 (wrap512 (n1 * d1)) mod
    let newx ← mod512 (wrap512 (wrap512 (c * c) - wrap512 (2 * self.x))) mod
    let newx := if newx < 0 then wrap512 (newx + mod) else newx
    let newy ← mod512 (wrap512 (wrap512 (c * wrap512 (self.x - newx)) - self.y)) mod
    let newy := if newy < 0 then wrap512 (newy + mod) else newy
    some { self with x := newx, y := newy }

/-- The member function `adder` on `int512_t`. -/
def el_point.adder_t (self q : el_point) (mod : Int) : Option el_point :=
  if !q.state then some self
  else if !self.state then some { x := q.x, y := q.y, state := true }
  else do
    let num ← mod512 (wrap512 (q.y - self.y)) mod
    let num := if num < 0 then wrap512 (num + mod) else num
    let denom ← modulo_inverse_t (wrap512 (q.x - self.x)) mod
    let denom := if denom < 0 then wrap512 (denom + mod) else denom
    let n1 ← mod512 num mod
    let d1 ← mod512 denom mod
    let c ← mod512 (wrap512 (n1 * d1)) mod
    let newx ← mod512 (wrap512 (wrap512 (wrap512 (c * c) - self.x) - q.x)) mod
    let newx := if newx < 0 then wrap512 (newx + mod) else newx
    let newy ← mod512 (wrap512 (wrap512 (c * wrap512 (self.x - newx)) - self.y)) mod
    let newy := if newy < 0 then wrap512 (newy + mod) else newy
    some { self with x := newx, y := newy }

/-- The loop of `scalarMult` on `int512_t`. -/
def scalarMult_loop_t (a mod : Int) : Nat → Int → el_point → el_point → Option el_point
  | 0, _, _, result => some result
  | fuel + 1, privkey, v, result =>
    if 0 < privkey then do
      let v1 ← v.doubler_t a mod
      let result1 ← (if privkey.tmod 2 = 1 then result.adder_t v1 mod else some result)
      scalarMult_loop_t a mod fuel (privkey.tdiv 2) v1 result1
    else some result

/-- The member function `scalarMult` on `int512_t`. -/
def el_curve_ops.scalarMult_t (c : el_curve_ops) (privkey : Int) (key : el_point) :
    Option el_point :=
  if !key.state then some key
  else
    let v := key
    let result := if privkey.tmod 2 = 1 then v else el_point.infinity
    let privkey1 := privkey.tdiv 2
    scalarMult_loop_t c.a c.mod privkey1.toNat privkey1 v result

/-- The member function `verify` on `int512_t`. -/
def el_curve_ops.verify_t (c : el_curve_ops) (v : el_point) : Option Bool := do
  let lhs ← modulo_power_t v.y 2 c.mod
  let rhs1 ← modulo_power_t v.x 3 c.mod
  let rhs ← mod512 (wrap512 (rhs1 + wrap512 (wrap512 (c.a * v.x) + c.b))) c.mod
  some (decide (lhs = rhs))

/-- The prime `3 * 2^276 + 1`, which is above `2^256`. -/
def wide_prime : Nat :=
  364250417292324200797399107529409794995451282322276160234714826826044553475976593409

/-! ## Truncated remainder -/

theorem tmod_modEq (a m : Int) : a.tmod m ≡ a [ZMOD m] := by
  have h := Int.tdiv_add_tmod a m
  refine (Int.modEq_iff_dvd).2 ⟨a.tdiv m, ?_⟩
  linarith

theorem tmod_lt (a : Int) {m : Int} (hm : 0 < m) : a.tmod m < m :=
  Int.tmod_lt_of_pos a hm

theorem neg_lt_tmod (a : Int) {m : Int} (hm : 0 < m) : -m < a.tmod m := by
  rcases le_or_lt 0 a with h | h
  · have := Int.tmod_nonneg m h
    omega
  · have h1 : (-a).tmod m < m := Int.tmod_lt_of_pos _ hm
    have h2 : (-a).tmod m = -(a.tmod m) := by
      simp [Int.tmod_def, Int.neg_tdiv]
      ring
    omega

theorem tmod_mul_tmod_modEq (a b m : Int) :
    ((a.tmod m) * (b.tmod m)).tmod m ≡ a * b [ZMOD m] :=
  (tmod_modEq _ m).trans ((tmod_modEq a m).mul (tmod_modEq b m))

theorem natCast_tdiv_two (n : Nat) : (n : Int).tdiv 2 = ((n / 2 : Nat) : Int) := by
  rw [Int.tdiv_eq_ediv (Int.natCast_nonneg n) (by norm_num)]
  omega

theorem natCast_tmod_two (n : Nat) : (n : Int).tmod 2 = ((n % 2 : Nat) : Int) := by
  rw [Int.tmod_eq_emod (Int.natCast_nonneg n) (by norm_num)]
  omega

/-! ## The square-and-multiply loop -/

/-- After the first turn (`counter ≠ 0`) the loop multiplies the accumulator
`a` by the `n`-th power of the square of `v`, modulo `m`, and keeps the
accumulator strictly between `-m` and `m`. -/
theorem modulo_power_loop_spec (base m : Int) (hm : 0 < m) :
    ∀ (fuel n : Nat) (v a : Int) (counter : Nat), n ≤ fuel → counter ≠ 0 →
      modulo_power_loop base m fuel (n : Int) v a counter ≡ a * (v * v) ^ n [ZMOD m] ∧
      (-m < a → a < m →
        -m < modulo_power_loop base m fuel (n : Int) v a counter ∧
        modulo_power_loop base m fuel (n : Int) v a counter < m) := by
  intro fuel
  induction fuel with
  | zero =>
    intro n v a counter hn _
    have h0 : n = 0 := by omega
    subst h0
    simp [modulo_power_loop]
    exact fun h1 h2 => ⟨h1, h2⟩
  | succ fuel ih =>
    intro n v a counter hn hc
    rcases Nat.eq_zero_or_pos n with h0 | hpos
    · subst h0
      simp [modulo_power_loop]
      exact fun h1 h2 => ⟨h1, h2⟩
    · have hposZ : (0 : Int) < (n : Int) := by exact_mod_cast hpos
      have hfuel : n / 2 ≤ fuel := by omega
      have hsplit : n = 2 * (n / 2) + n % 2 := by omega
      simp only [modulo_power_loop, hposZ, if_true, if_neg hc, natCast_tdiv_two,
        natCast_tmod_two]
      set v1 := ((v.tmod m) * (v.tmod m)).tmod m with hv1
      have hv1eq : v1 ≡ v * v [ZMOD m] := tmod_mul_tmod_modEq v v m
      have hpow : v1 ^ n ≡ (v * v) ^ n [ZMOD m] := hv1eq.pow n
      rcases Nat.mod_two_eq_zero_or_one n with hpar | hpar
      · have hne : ¬ (((n % 2 : Nat) : Int) = 1) := by rw [hpar]; norm_num
        rw [if_neg hne]
        obtain ⟨ih1, ih2⟩ := ih (n / 2) v1 a (counter + 1) hfuel (Nat.succ_ne_zero _)
        refine ⟨?_, ih2⟩
        refine ih1.trans ?_
        have hexp : (v1 * v1) ^ (n / 2) = v1 ^ n := by
          rw [← pow_two, ← pow_mul]
          congr 1
          omega
        rw [hexp]
        exact hpow.mul_left a
      · have heq : (((n % 2 : Nat) : Int) = 1) := by rw [hpar]; norm_num
        rw [if_pos heq]
        set a1 := ((a.tmod m) * (v1.tmod m)).tmod m with ha1
        have ha1eq : a1 ≡ a * v1 [ZMOD m] := tmod_mul_tmod_modEq a v1 m
        obtain ⟨ih1, ih2⟩ := ih (n / 2) v1 a1 (counter + 1) hfuel (Nat.succ_ne_zero _)
        refine ⟨?_, fun _ _ => ih2 (neg_lt_tmod _ hm) (tmod_lt _ hm)⟩
        refine ih1.trans ?_
        have hexp : a * v1 * (v1 * v1) ^ (n / 2) = a * v1 ^ n := by
          rw [← pow_two, ← pow_mul, mul_assoc, ← pow_succ']
          congr 2
          omega
        refine (ha1eq.mul_right _).trans ?_
        rw [hexp]
        exact hpow.mul_left a

/-- The turn budget is never the reason the loop stops: any two budgets of at
least `n` turns give the same result for exponent `n`. -/
theorem modulo_power_loop_budget (base m : Int) :
    ∀ (fuel1 fuel2 n : Nat) (v a : Int) (counter : Nat), n ≤ fuel1 → n ≤ fuel2 →
      modulo_power_loop base m fuel1 (n : Int) v a counter =
        modulo_power_loop base m fuel2 (n : Int) v a counter := by
  intro fuel1
  induction fuel1 with
  | zero =>
    intro fuel2 n v a counter h1 _
    have h0 : n = 0 := by omega
    subst h0
    cases fuel2 <;> simp [modulo_power_loop]
  | succ fuel1 ih =>
    intro fuel2 n v a counter h1 h2
    cases fuel2 with
    | zero =>
      have h0 : n = 0 := by omega
      subst h0
      simp [modulo_power_loop]
    | succ fuel2 =>
      rcases Nat.eq_zero_or_pos n with h0 | hpos
      · subst h0
        simp [modulo_power_loop]
      · have hposZ : (0 : Int) < (n : Int) := by exact_mod_cast hpos
        simp only [modulo_power_loop, hposZ, if_true, natCast_tdiv_two]
        exact ih fuel2 (n / 2) _ _ _ (by omega) (by omega)

/-- The final `a < 0 ? a + mod : a` turns a value strictly between `-m` and
`m` into the least non-negative residue. -/
theorem normalize_eq_emod {r t m : Int} (h1 : -m < r) (h2 : r < m) (h : r ≡ t [ZMOD m]) :
    (if r < 0 then r + m else r) = t % m := by
  split_ifs with hneg
  · have h3 : r + m ≡ t [ZMOD m] := by
      have : r + m ≡ r + 0 [ZMOD m] := Int.ModEq.add_left r (by simp [Int.ModEq])
      simpa using this.trans (by simpa using h)
    rw [← h3.eq]
    exact (Int.emod_eq_of_lt (by omega) (by omega)).symm
  · rw [← h.eq]
    exact (Int.emod_eq_of_lt (by omega) (by omega)).symm

theorem modulo_power_natCast (base : Int) (n : Nat) {m : Int} (hm : 2 ≤ m) :
    modulo_power base (n : Int) m = base ^ n % m := by
  have hm0 : 0 < m := by omega
  unfold modulo_power
  rw [Int.toNat_natCast]
  cases n with
  | zero =>
    simp [modulo_power_loop]
    exact (Int.emod_eq_of_lt (by omega) (by omega)).symm
  | succ k =>
    have hposZ : (0 : Int) < ((k + 1 : Nat) : Int) := by exact_mod_cast Nat.succ_pos k
    simp only [modulo_power_loop, hposZ, if_true, natCast_tdiv_two, natCast_tmod_two]
    set v1 := base.tmod m with hv1
    have hv1eq : v1 ≡ base [ZMOD m] := tmod_modEq base m
    have hfuel : (k + 1) / 2 ≤ k := by omega
    have hpow : v1 ^ (k + 1) ≡ base ^ (k + 1) [ZMOD m] := hv1eq.pow _
    rcases Nat.mod_two_eq_zero_or_one (k + 1) with hpar | hpar
    · have hne : ¬ ((((k + 1) % 2 : Nat) : Int) = 1) := by rw [hpar]; norm_num
      rw [if_neg hne]
      obtain ⟨ih1, ih2⟩ := modulo_power_loop_spec base m hm0 k ((k + 1) / 2) v1 1 (0 + 1)
        hfuel (Nat.succ_ne_zero _)
      obtain ⟨hlo, hhi⟩ := ih2 (by omega) (by omega)
      refine normalize_eq_emod hlo hhi (ih1.trans ?_)
      have hexp : 1 * (v1 * v1) ^ ((k + 1) / 2) = v1 ^ (k + 1) := by
        rw [one_mul, ← pow_two, ← pow_mul]
        congr 1
        omega
      rw [hexp]
      exact hpow
    · have heq : ((((k + 1) % 2 : Nat) : Int) = 1) := by rw [hpar]; norm_num
      rw [if_pos heq]
      set a1 := (((1 : Int).tmod m) * (v1.tmod m)).tmod m with ha1
      have ha1eq : a1 ≡ 1 * v1 [ZMOD m] := tmod_mul_tmod_modEq 1 v1 m
      obtain ⟨ih1, ih2⟩ := modulo_power_loop_spec base m hm0 k ((k + 1) / 2) v1 a1 (0 + 1)
        hfuel (Nat.succ_ne_zero _)
      obtain ⟨hlo, hhi⟩ := ih2 (neg_lt_tmod _ hm0) (tmod_lt _ hm0)
      refine normalize_eq_emod hlo hhi (ih1.trans ?_)
      have hexp : 1 * v1 * (v1 * v1) ^ ((k + 1) / 2) = v1 ^ (k + 1) := by
        rw [one_mul, ← pow_two, ← pow_mul, ← pow_succ']
        congr 1
        omega
      refine (ha1eq.mul_right _).trans ?_
      rw [hexp]
      exact hpow

/-- On unbounded integers: for every integer `base`, exponent `e ≥ 0` and modulus `m ≥ 2`,
`modulo_power base e m` is the residue of `base ^ e` modulo `m`: it lies in
`[0, m)`, is congruent to `base ^ e`, and is therefore the value `base ^ e % m`. -/
theorem modulo_power_correct (base e m : Int) (he : 0 ≤ e) (hm : 2 ≤ m) :
    0 ≤ modulo_power base e m ∧ modulo_power base e m < m ∧
      modulo_power base e m ≡ base ^ e.toNat [ZMOD m] ∧
      modulo_power base e m = base ^ e.toNat % m := by
  have hm0 : 0 < m := by omega
  have hval : modulo_power base e m = base ^ e.toNat % m := by
    conv_lhs => rw [← Int.toNat_of_nonneg he]
    exact modulo_power_natCast base e.toNat hm
  refine ⟨?_, ?_, ?_, hval⟩
  · rw [hval]; exact Int.emod_nonneg _ (by omega)
  · rw [hval]; exact Int.emod_lt_of_pos _ hm0
  · rw [hval]; exact Int.mod_modEq _ _

/-- The worked example of the source comment, `5 ^ 117 mod 19 = 1`, obtained
from the correctness theorem of `modulo_power`. -/
theorem modulo_power_correct_witness :
    modulo_power 5 117 19 = 1 ∧
    (0 ≤ modulo_power 5 117 19 ∧ modulo_power 5 117 19 < 19 ∧
      modulo_power 5 117 19 ≡ 5 ^ (117 : Int).toNat [ZMOD 19] ∧
      modulo_power 5 117 19 = 5 ^ (117 : Int).toNat % 19) :=
  ⟨by decide, modulo_power_correct 5 117 19 (by decide) (by decide)⟩

/-! ## The Fermat inverse -/

theorem modulo_inverse_eq (v : Int) {m : Int} (hm : 2 ≤ m) :
    modulo_inverse v m = v ^ (m - 2).toNat % m := by
  unfold modulo_inverse
  exact (modulo_power_correct v (m - 2) m (by omega) hm).2.2.2

theorem modulo_inverse_range (v : Int) {m : Int} (hm : 2 ≤ m) :
    0 ≤ modulo_inverse v m ∧ modulo_inverse v m < m := by
  rw [modulo_inverse_eq v hm]
  exact ⟨Int.emod_nonneg _ (by omega), Int.emod_lt_of_pos _ (by omega)⟩

theorem modulo_inverse_mul (p : Nat) (hp : p.Prime) (a : Int) (ha : ¬ (p : Int) ∣ a) :
    modulo_inverse a p * a ≡ 1 [ZMOD p] := by
  have h2 : 2 ≤ p := hp.two_le
  have h2Z : (2 : Int) ≤ (p : Int) := by exact_mod_cast h2
  rw [modulo_inverse_eq a h2Z]
  have hexp : ((p : Int) - 2).toNat = p - 2 := by omega
  rw [hexp]
  have hcop : IsCoprime a (p : Int) :=
    ((Nat.prime_iff_prime_int.mp hp).coprime_iff_not_dvd.2 ha).symm
  have hfermat := Int.ModEq.pow_card_sub_one_eq_one hp hcop
  have hstep : a ^ (p - 2) % (p : Int) * a ≡ a ^ (p - 2) * a [ZMOD p] :=
    (Int.mod_modEq _ _).mul_right a
  refine hstep.trans ?_
  have hpow : a ^ (p - 2) * a = a ^ (p - 1) := by
    rw [← pow_succ]
    congr 1
    omega
  rw [hpow]
  exact hfermat

/-- On unbounded integers: for every prime `p` and every integer `a` not divisible by `p`
(negative values included), `modulo_inverse a p` lies in `[0, p)` and its
product with `a` is congruent to `1` modulo `p`. -/
theorem modulo_inverse_correct (p : Nat) (hp : p.Prime) (a : Int) (ha : ¬ (p : Int) ∣ a) :
    0 ≤ modulo_inverse a p ∧ modulo_inverse a p < p ∧
      modulo_inverse a p * a ≡ 1 [ZMOD p] := by
  have h2Z : (2 : Int) ≤ (p : Int) := by exact_mod_cast hp.two_le
  exact ⟨(modulo_inverse_range a h2Z).1, (modulo_inverse_range a h2Z).2,
    modulo_inverse_mul p hp a ha⟩

/-- The inverse of `-3` modulo `7` is `2`, as an instance of
`modulo_inverse_correct` at a negative argument. -/
theorem modulo_inverse_correct_witness :
    modulo_inverse (-3) 7 = 2 ∧
    (0 ≤ modulo_inverse (-3) ((7 : Nat) : Int) ∧ modulo_inverse (-3) ((7 : Nat) : Int) < (7 : Nat) ∧
      modulo_inverse (-3) ((7 : Nat) : Int) * (-3) ≡ 1 [ZMOD ((7 : Nat) : Int)]) :=
  ⟨by decide, modulo_inverse_correct 7 (by norm_num) (-3) (by decide)⟩

/-! ## Curve membership -/

theorem tmod_eq_emod_of_nonneg {t m : Int} (ht : 0 ≤ t) (hm : 0 < m) : t.tmod m = t % m :=
  Int.tmod_eq_emod ht (by omega)

/-- When `a * x + b` is not negative, `verify` decides the curve equation
modulo `m`. -/
theorem verify_iff_of_nonneg (c : el_curve_ops) (v : el_point) (hm : 2 ≤ c.mod)
    (hnn : 0 ≤ c.a * v.x + c.b) :
    c.verify v = true ↔ v.y ^ 2 ≡ v.x ^ 3 + c.a * v.x + c.b [ZMOD c.mod] := by
  have hm0 : 0 < c.mod := by omega
  have hy := (modulo_power_correct v.y 2 c.mod (by norm_num) hm).2.2.2
  have hx := (modulo_power_correct v.x 3 c.mod (by norm_num) hm).2.2.2
  have hx0 := (modulo_power_correct v.x 3 c.mod (by norm_num) hm).1
  have e2 : (2 : Int).toNat = 2 := rfl
  have e3 : (3 : Int).toNat = 3 := rfl
  rw [e2] at hy
  rw [e3] at hx
  unfold el_curve_ops.verify
  simp only [decide_eq_true_eq]
  rw [tmod_eq_emod_of_nonneg (by omega) hm0, hy, hx]
  have hsum : (v.x ^ 3 % c.mod + (c.a * v.x + c.b)) % c.mod =
      (v.x ^ 3 + c.a * v.x + c.b) % c.mod := by
    rw [Int.add_emod, Int.emod_emod_of_dvd _ (dvd_refl _), ← Int.add_emod, add_assoc]
  rw [hsum]
  exact Iff.rfl

/-- C3 (failing input): on the curve `y^2 = x^3 - 3 x + 1` modulo `11` the
point `(5, 1)` satisfies the curve equation, yet `verify` returns `false`:
the right-hand side `(4 + (-15 + 1)) % 11` is the negative remainder `-10`,
which is compared with the normalised left-hand side `1`. -/
theorem verify_rejects_point_on_curve :
    el_curve_ops.verify ⟨-3, 1, 11⟩ (el_point.affine 5 1) = false ∧
      (el_point.affine 5 1).y ^ 2 ≡
        (el_point.affine 5 1).x ^ 3 + (-3) * (el_point.affine 5 1).x + 1 [ZMOD 11] := by
  decide

/-- The generator point of secp256k1 passes `verify` (the first check of the
demo driver). -/
theorem verify_secp256k1_generator :
    el_curve_ops.verify
      ⟨0, 7, 0xFFFFFFFFFFFFFFFFFFFFFFFFFFFFFFFFFFFFFFFFFFFFFFFFFFFFFFFEFFFFFC2F⟩
      (el_point.affine 0x79BE667EF9DCBBAC55A06295CE870B07029BFCDB2DCE28D959F2815B16F81798
        0x483ADA7726A3C4655DA4FBFC0E1108A8FD17B448A68554199C47D08FFB10D4B8) = true := by
  decide

/-! ## Closed forms of `doubler` and `adder` on affine points -/

/-- A truncated remainder followed by `if (t < 0) t += m` is the least
non-negative residue. -/
theorem tmod_normalize (t : Int) {m : Int} (hm : 0 < m) :
    (if t.tmod m < 0 then t.tmod m + m else t.tmod m) = t % m :=
  normalize_eq_emod (neg_lt_tmod t hm) (tmod_lt t hm) (tmod_modEq t m)

theorem tmod_mul_tmod_of_nonneg {s t m : Int} (hs : 0 ≤ s) (ht : 0 ≤ t) (hm : 0 < m) :
    ((s.tmod m) * (t.tmod m)).tmod m = (s * t) % m := by
  rw [tmod_eq_emod_of_nonneg hs hm, tmod_eq_emod_of_nonneg ht hm,
    tmod_eq_emod_of_nonneg (mul_nonneg (Int.emod_nonneg _ (by omega)) (Int.emod_nonneg _ (by omega))) hm,
    ← Int.mul_emod]

/-- On an affine point `doubler` computes the slope `c` from the normalised
numerator and the Fermat inverse of `2 y`, and stores the least non-negative
residues of `c^2 - 2 x` and `c (x - x') - y`. -/
theorem doubler_affine_eq (x y a m c : Int) (hm : 2 ≤ m)
    (hc : c = ((3 * (x ^ 2 % m) + a) % m * modulo_inverse (2 * y) m) % m) :
    (el_point.mk x y true).doubler a m =
      ⟨(c * c - 2 * x) % m, (c * (x - (c * c - 2 * x) % m) - y) % m, true⟩ := by
  have hm0 : 0 < m := by omega
  have hpow : modulo_power x 2 m = x ^ 2 % m :=
    (modulo_power_correct x 2 m (by norm_num) hm).2.2.2
  have hden := modulo_inverse_range (2 * y) hm
  have hnum0 : 0 ≤ (3 * (x ^ 2 % m) + a) % m := Int.emod_nonneg _ (by omega)
  simp only [el_point.doubler, Bool.not_true, Bool.false_eq_true, if_false, hpow,
    tmod_normalize _ hm0, tmod_mul_tmod_of_nonneg hnum0 hden.1 hm0, ← hc]

/-- On two affine points `adder` computes the slope `c` from the normalised
numerator and the Fermat inverse of `q.x - x`, and stores the least
non-negative residues of `c^2 - x - q.x` and `c (x - x') - y`. -/
theorem adder_affine_eq (x y qx qy m c : Int) (hm : 2 ≤ m)
    (hc : c = ((qy - y) % m * modulo_inverse (qx - x) m) % m) :
    (el_point.mk x y true).adder (el_point.mk qx qy true) m =
      ⟨(c * c - x - qx) % m, (c * (x - (c * c - x - qx) % m) - y) % m, true⟩ := by
  have hm0 : 0 < m := by omega
  have hden := modulo_inverse_range (qx - x) hm
  have hden0 : ¬ modulo_inverse (qx - x) m < 0 := by omega
  have hnum0 : 0 ≤ (qy - y) % m := Int.emod_nonneg _ (by omega)
  simp only [el_point.adder, Bool.not_true, Bool.false_eq_true, if_false, hden0,
    tmod_normalize _ hm0, tmod_mul_tmod_of_nonneg hnum0 hden.1 hm0, ← hc]

/-! ## The slope as a field quotient -/

/-- For a prime `p` and a denominator `den` not divisible by `p`, the residue
`(n0 * modulo_inverse den p) % p` is the quotient `num / den` in `Z/pZ`
whenever `n0 ≡ num`: it lies in `[0, p)`, its product with `den` is `num`,
and every solution of `c * den ≡ num` is congruent to it. -/
theorem slope_spec (p : Nat) (hp : p.Prime) (den num n0 : Int) (hden : ¬ (p : Int) ∣ den)
    (hn0 : n0 ≡ num [ZMOD p]) :
    0 ≤ (n0 * modulo_inverse den p) % p ∧ (n0 * modulo_inverse den p) % p < p ∧
      (n0 * modulo_inverse den p) % p * den ≡ num [ZMOD p] ∧
      ∀ c : Int, c * den ≡ num [ZMOD p] → c ≡ (n0 * modulo_inverse den p) % p [ZMOD p] := by
  have hp0 : (0 : Int) < (p : Int) := by exact_mod_cast hp.pos
  have hinv := modulo_inverse_mul p hp den hden
  have hc0 : (n0 * modulo_inverse den p) % p ≡ num * modulo_inverse den p [ZMOD p] :=
    (Int.mod_modEq _ _).trans (hn0.mul_right _)
  refine ⟨Int.emod_nonneg _ (by omega), Int.emod_lt_of_pos _ hp0, ?_, ?_⟩
  · have h1 : (n0 * modulo_inverse den p) % p * den ≡ num * modulo_inverse den p * den [ZMOD p] :=
      hc0.mul_right den
    refine h1.trans ?_
    have h2 : num * modulo_inverse den p * den = num * (modulo_inverse den p * den) := by ring
    rw [h2]
    simpa using hinv.mul_left num
  · intro c hc
    have h1 : c * (modulo_inverse den p * den) ≡ c * 1 [ZMOD p] := hinv.mul_left c
    have h2 : c * den * modulo_inverse den p ≡ num * modulo_inverse den p [ZMOD p] :=
      hc.mul_right _
    have h3 : c * (modulo_inverse den p * den) = c * den * modulo_inverse den p := by ring
    rw [h3, mul_one] at h1
    exact h1.symm.trans (h2.trans hc0.symm)

theorem prime_not_dvd_two_mul (p : Nat) (hp : p.Prime) (hp2 : 2 < p) (y : Int)
    (hy : ¬ (p : Int) ∣ y) : ¬ (p : Int) ∣ 2 * y := by
  intro h
  rcases (Nat.prime_iff_prime_int.mp hp).dvd_or_dvd h with h2 | h2
  · have := Int.le_of_dvd (by norm_num) h2
    omega
  · exact hy h2

/-- The closed form of `doubler` read modulo a prime `p > 2` when `p` does not
divide `y`: ranges of the new coordinates, existence and uniqueness of the
slope, and the tangent formulas. -/
theorem doubler_affine_spec (p : Nat) (hp : p.Prime) (hp2 : 2 < p) (a x y : Int)
    (hy : ¬ (p : Int) ∣ y) :
    ((el_point.affine x y).doubler a p).state = true ∧
    0 ≤ ((el_point.affine x y).doubler a p).x ∧ ((el_point.affine x y).doubler a p).x < p ∧
    0 ≤ ((el_point.affine x y).doubler a p).y ∧ ((el_point.affine x y).doubler a p).y < p ∧
    (∃ c : Int, 0 ≤ c ∧ c < p ∧ c * (2 * y) ≡ 3 * x ^ 2 + a [ZMOD p]) ∧
    (∀ c d : Int, c * (2 * y) ≡ 3 * x ^ 2 + a [ZMOD p] →
      d * (2 * y) ≡ 3 * x ^ 2 + a [ZMOD p] → c ≡ d [ZMOD p]) ∧
    (∀ c : Int, c * (2 * y) ≡ 3 * x ^ 2 + a [ZMOD p] →
      ((el_point.affine x y).doubler a p).x ≡ c ^ 2 - 2 * x [ZMOD p] ∧
      ((el_point.affine x y).doubler a p).y ≡
        c * (x - ((el_point.affine x y).doubler a p).x) - y [ZMOD p]) := by
  have hp0 : (0 : Int) < (p : Int) := by exact_mod_cast hp.pos
  have h2Z : (2 : Int) ≤ (p : Int) := by exact_mod_cast hp.two_le
  have hden := prime_not_dvd_two_mul p hp hp2 y hy
  have hn0 : (3 * (x ^ 2 % (p : Int)) + a) % p ≡ 3 * x ^ 2 + a [ZMOD p] :=
    (Int.mod_modEq _ _).trans (((Int.mod_modEq _ _).mul_left 3).add_right a)
  obtain ⟨hc0, hc1, hc2, hc3⟩ := slope_spec p hp (2 * y) (3 * x ^ 2 + a) _ hden hn0
  rw [el_point.affine, doubler_affine_eq x y a p _ h2Z rfl]
  set c0 := ((3 * (x ^ 2 % (p : Int)) + a) % p * modulo_inverse (2 * y) p) % p with hc0def
  refine ⟨rfl, Int.emod_nonneg _ (by omega), Int.emod_lt_of_pos _ hp0,
    Int.emod_nonneg _ (by omega), Int.emod_lt_of_pos _ hp0, ⟨c0, hc0, hc1, hc2⟩, ?_, ?_⟩
  · intro c d hc hd
    exact (hc3 c hc).trans (hc3 d hd).symm
  · intro c hc
    have hcc : c0 ≡ c [ZMOD p] := (hc3 c hc).symm
    constructor
    · refine (Int.mod_modEq _ _).trans ?_
      have : c0 * c0 ≡ c ^ 2 [ZMOD p] := by
        rw [pow_two]
        exact hcc.mul hcc
      exact this.sub_right _
    · refine (Int.mod_modEq _ _).trans ?_
      exact (hcc.mul_right _).sub_right _

/-- On unbounded integers: for every prime `p > 2`, every integer `a` and every affine point
`(x, y)` with `y` not divisible by `p`, `doubler a p` leaves the point affine
with coordinates `x'`, `y'` in `[0, p)`; the quotient `(3 x^2 + a) / (2 y)`
exists in `Z/pZ` and is unique, and for that quotient `c` the new coordinates
satisfy `x' ≡ c^2 - 2 x` and `y' ≡ c (x - x') - y` modulo `p`. -/
theorem doubler_correct (p : Nat) (hp : p.Prime) (hp2 : 2 < p) (a x y : Int)
    (hy : ¬ (p : Int) ∣ y) :
    ((el_point.affine x y).doubler a p).state = true ∧
    0 ≤ ((el_point.affine x y).doubler a p).x ∧ ((el_point.affine x y).doubler a p).x < p ∧
    0 ≤ ((el_point.affine x y).doubler a p).y ∧ ((el_point.affine x y).doubler a p).y < p ∧
    (∃ c : Int, 0 ≤ c ∧ c < p ∧ c * (2 * y) ≡ 3 * x ^ 2 + a [ZMOD p]) ∧
    (∀ c d : Int, c * (2 * y) ≡ 3 * x ^ 2 + a [ZMOD p] →
      d * (2 * y) ≡ 3 * x ^ 2 + a [ZMOD p] → c ≡ d [ZMOD p]) ∧
    (∀ c : Int, c * (2 * y) ≡ 3 * x ^ 2 + a [ZMOD p] →
      ((el_point.affine x y).doubler a p).x ≡ c ^ 2 - 2 * x [ZMOD p] ∧
      ((el_point.affine x y).doubler a p).y ≡
        c * (x - ((el_point.affine x y).doubler a p).x) - y [ZMOD p]) :=
  doubler_affine_spec p hp hp2 a x y hy

/-- Doubling `(5, 1)` on `y^2 = x^3 + 2 x + 2` modulo `17` gives `(6, 3)`, as
an instance of `doubler_correct`. -/
theorem doubler_correct_witness :
    (el_point.affine 5 1).doubler 2 17 = el_point.affine 6 3 ∧
    (((el_point.affine 5 1).doubler 2 ((17 : Nat) : Int)).state = true ∧
    0 ≤ ((el_point.affine 5 1).doubler 2 ((17 : Nat) : Int)).x ∧
    ((el_point.affine 5 1).doubler 2 ((17 : Nat) : Int)).x < ((17 : Nat) : Int) ∧
    0 ≤ ((el_point.affine 5 1).doubler 2 ((17 : Nat) : Int)).y ∧
    ((el_point.affine 5 1).doubler 2 ((17 : Nat) : Int)).y < ((17 : Nat) : Int) ∧
    (∃ c : Int, 0 ≤ c ∧ c < ((17 : Nat) : Int) ∧
      c * (2 * 1) ≡ 3 * 5 ^ 2 + 2 [ZMOD ((17 : Nat) : Int)]) ∧
    (∀ c d : Int, c * (2 * 1) ≡ 3 * 5 ^ 2 + 2 [ZMOD ((17 : Nat) : Int)] →
      d * (2 * 1) ≡ 3 * 5 ^ 2 + 2 [ZMOD ((17 : Nat) : Int)] → c ≡ d [ZMOD ((17 : Nat) : Int)]) ∧
    (∀ c : Int, c * (2 * 1) ≡ 3 * 5 ^ 2 + 2 [ZMOD ((17 : Nat) : Int)] →
      ((el_point.affine 5 1).doubler 2 ((17 : Nat) : Int)).x ≡ c ^ 2 - 2 * 5 [ZMOD ((17 : Nat) : Int)] ∧
      ((el_point.affine 5 1).doubler 2 ((17 : Nat) : Int)).y ≡
        c * (5 - ((el_point.affine 5 1).doubler 2 ((17 : Nat) : Int)).x) - 1
          [ZMOD ((17 : Nat) : Int)])) :=
  ⟨by decide, doubler_correct 17 (by norm_num) (by norm_num) 2 5 1 (by decide)⟩

/-- The closed form of `adder` read modulo a prime `p` when `p` does not divide
`qx - x`: ranges of the new coordinates, existence and uniqueness of the
slope, and the chord formulas. -/
theorem adder_affine_spec (p : Nat) (hp : p.Prime) (x y qx qy : Int)
    (hx : ¬ (p : Int) ∣ qx - x) :
    ((el_point.affine x y).adder (el_point.affine qx qy) p).state = true ∧
    0 ≤ ((el_point.affine x y).adder (el_point.affine qx qy) p).x ∧
    ((el_point.affine x y).adder (el_point.affine qx qy) p).x < p ∧
    0 ≤ ((el_point.affine x y).adder (el_point.affine qx qy) p).y ∧
    ((el_point.affine x y).adder (el_point.affine qx qy) p).y < p ∧
    (∃ c : Int, 0 ≤ c ∧ c < p ∧ c * (qx - x) ≡ qy - y [ZMOD p]) ∧
    (∀ c d : Int, c * (qx - x) ≡ qy - y [ZMOD p] →
      d * (qx - x) ≡ qy - y [ZMOD p] → c ≡ d [ZMOD p]) ∧
    (∀ c : Int, c * (qx - x) ≡ qy - y [ZMOD p] →
      ((el_point.affine x y).adder (el_point.affine qx qy) p).x ≡ c ^ 2 - x - qx [ZMOD p] ∧
      ((el_point.affine x y).adder (el_point.affine qx qy) p).y ≡
        c * (x - ((el_point.affine x y).adder (el_point.affine qx qy) p).x) - y [ZMOD p]) := by
  have hp0 : (0 : Int) < (p : Int) := by exact_mod_cast hp.pos
  have h2Z : (2 : Int) ≤ (p : Int) := by exact_mod_cast hp.two_le
  have hn0 : (qy - y) % (p : Int) ≡ qy - y [ZMOD p] := Int.mod_modEq _ _
  obtain ⟨hc0, hc1, hc2, hc3⟩ := slope_spec p hp (qx - x) (qy - y) _ hx hn0
  rw [el_point.affine, el_point.affine, adder_affine_eq x y qx qy p _ h2Z rfl]
  set c0 := ((qy - y) % (p : Int) * modulo_inverse (qx - x) p) % p with hc0def
  refine ⟨rfl, Int.emod_nonneg _ (by omega), Int.emod_lt_of_pos _ hp0,
    Int.emod_nonneg _ (by omega), Int.emod_lt_of_pos _ hp0, ⟨c0, hc0, hc1, hc2⟩, ?_, ?_⟩
  · intro c d hc hd
    exact (hc3 c hc).trans (hc3 d hd).symm
  · intro c hc
    have hcc : c0 ≡ c [ZMOD p] := (hc3 c hc).symm
    constructor
    · refine (Int.mod_modEq _ _).trans ?_
      have : c0 * c0 ≡ c ^ 2 [ZMOD p] := by
        rw [pow_two]
        exact hcc.mul hcc
      exact (this.sub_right _).sub_right _
    · refine (Int.mod_modEq _ _).trans ?_
      exact (hcc.mul_right _).sub_right _

/-- On unbounded integers: for every prime `p` and all affine points `(x, y)` and `(qx, qy)` with
`qx - x` not divisible by `p`, `adder` leaves the first point affine with
coordinates `x'`, `y'` in `[0, p)`; the quotient `(qy - y) / (qx - x)` exists
in `Z/pZ` and is unique, and for that quotient `c` the new coordinates satisfy
`x' ≡ c^2 - x - qx` and `y' ≡ c (x - x') - y` modulo `p`. -/
theorem adder_correct (p : Nat) (hp : p.Prime) (x y qx qy : Int)
    (hx : ¬ (p : Int) ∣ qx - x) :
    ((el_point.affine x y).adder (el_point.affine qx qy) p).state = true ∧
    0 ≤ ((el_point.affine x y).adder (el_point.affine qx qy) p).x ∧
    ((el_point.affine x y).adder (el_point.affine qx qy) p).x < p ∧
    0 ≤ ((el_point.affine x y).adder (el_point.affine qx qy) p).y ∧
    ((el_point.affine x y).adder (el_point.affine qx qy) p).y < p ∧
    (∃ c : Int, 0 ≤ c ∧ c < p ∧ c * (qx - x) ≡ qy - y [ZMOD p]) ∧
    (∀ c d : Int, c * (qx - x) ≡ qy - y [ZMOD p] →
      d * (qx - x) ≡ qy - y [ZMOD p] → c ≡ d [ZMOD p]) ∧
    (∀ c : Int, c * (qx - x) ≡ qy - y [ZMOD p] →
      ((el_point.affine x y).adder (el_point.affine qx qy) p).x ≡ c ^ 2 - x - qx [ZMOD p] ∧
      ((el_point.affine x y).adder (el_point.affine qx qy) p).y ≡
        c * (x - ((el_point.affine x y).adder (el_point.affine qx qy) p).x) - y [ZMOD p]) :=
  adder_affine_spec p hp x y qx qy hx

/-- Adding `(6, 3)` to `(5, 1)` on `y^2 = x^3 + 2 x + 2` modulo `17` gives
`(10, 6)`, as an instance of `adder_correct`. -/
theorem adder_correct_witness :
    (el_point.affine 5 1).adder (el_point.affine 6 3) 17 = el_point.affine 10 6 ∧
    (((el_point.affine 5 1).adder (el_point.affine 6 3) ((17 : Nat) : Int)).state = true ∧
    0 ≤ ((el_point.affine 5 1).adder (el_point.affine 6 3) ((17 : Nat) : Int)).x ∧
    ((el_point.affine 5 1).adder (el_point.affine 6 3) ((17 : Nat) : Int)).x < ((17 : Nat) : Int) ∧
    0 ≤ ((el_point.affine 5 1).adder (el_point.affine 6 3) ((17 : Nat) : Int)).y ∧
    ((el_point.affine 5 1).adder (el_point.affine 6 3) ((17 : Nat) : Int)).y < ((17 : Nat) : Int) ∧
    (∃ c : Int, 0 ≤ c ∧ c < ((17 : Nat) : Int) ∧ c * (6 - 5) ≡ 3 - 1 [ZMOD ((17 : Nat) : Int)]) ∧
    (∀ c d : Int, c * (6 - 5) ≡ 3 - 1 [ZMOD ((17 : Nat) : Int)] →
      d * (6 - 5) ≡ 3 - 1 [ZMOD ((17 : Nat) : Int)] → c ≡ d [ZMOD ((17 : Nat) : Int)]) ∧
    (∀ c : Int, c * (6 - 5) ≡ 3 - 1 [ZMOD ((17 : Nat) : Int)] →
      ((el_point.affine 5 1).adder (el_point.affine 6 3) ((17 : Nat) : Int)).x ≡
        c ^ 2 - 5 - 6 [ZMOD ((17 : Nat) : Int)] ∧
      ((el_point.affine 5 1).adder (el_point.affine 6 3) ((17 : Nat) : Int)).y ≡
        c * (5 - ((el_point.affine 5 1).adder (el_point.affine 6 3) ((17 : Nat) : Int)).x) - 1
          [ZMOD ((17 : Nat) : Int)])) :=
  ⟨by decide, adder_correct 17 (by norm_num) 5 1 6 3 (by decide)⟩

/-! ## The point at infinity -/

/-- C6: the point at infinity is a two-sided identity for `adder`: adding a
point at infinity to any point `P` leaves `x`, `y` and `state` of `P`
unchanged, and adding an affine point `Q` to a point at infinity makes it
equal to `Q` (same `x`, same `y`, affine). -/
theorem adder_infinity_identity (m : Int) (P Q O : el_point) (hO : O.state = false)
    (hQ : Q.state = true) :
    P.adder O m = P ∧ O.adder Q m = Q ∧
      (O.adder Q m).x = Q.x ∧ (O.adder Q m).y = Q.y ∧ (O.adder Q m).state = true := by
  have h1 : P.adder O m = P := by
    simp [el_point.adder, hO]
  have h2 : O.adder Q m = Q := by
    cases Q with
    | mk qx qy qs =>
      simp only at hQ
      subst hQ
      simp [el_point.adder, hO]
  refine ⟨h1, h2, ?_, ?_, ?_⟩
  · rw [h2]
  · rw [h2]
  · rw [h2]; exact hQ

/-- The default-constructed point is an identity for `adder` with the affine
points `(5, 1)` and `(6, 3)`, as an instance of `adder_infinity_identity`. -/
theorem adder_infinity_identity_witness :
    (el_point.affine 5 1).adder el_point.infinity 17 = el_point.affine 5 1 ∧
    el_point.infinity.adder (el_point.affine 6 3) 17 = el_point.affine 6 3 ∧
    (el_point.infinity.adder (el_point.affine 6 3) 17).x = (el_point.affine 6 3).x ∧
    (el_point.infinity.adder (el_point.affine 6 3) 17).y = (el_point.affine 6 3).y ∧
    (el_point.infinity.adder (el_point.affine 6 3) 17).state = true :=
  adder_infinity_identity 17 (el_point.affine 5 1) (el_point.affine 6 3) el_point.infinity rfl rfl

/-! ## The state flag -/

theorem doubler_state (P : el_point) (a m : Int) : (P.doubler a m).state = P.state := by
  unfold el_point.doubler
  split <;> rfl

theorem adder_state (P Q : el_point) (m : Int) (hQ : Q.state = true) :
    (P.adder Q m).state = true := by
  unfold el_point.adder
  simp only [hQ, Bool.not_true, Bool.false_eq_true, if_false]
  split
  · rfl
  · simp_all

theorem adder_of_infinity (P Q : el_point) (m : Int) (hP : P.state = false)
    (hQ : Q.state = true) : P.adder Q m = Q := by
  cases Q with
  | mk qx qy qs =>
    simp only at hQ
    subst hQ
    simp [el_point.adder, hP]

theorem tdiv_two_of_nonneg {k : Int} (hk : 0 ≤ k) : k.tdiv 2 = k / 2 :=
  Int.tdiv_eq_ediv hk (by norm_num)

theorem tmod_two_of_nonneg {k : Int} (hk : 0 ≤ k) : k.tmod 2 = k % 2 :=
  Int.tmod_eq_emod hk (by norm_num)

/-- The loop of `scalarMult` returns an affine point as soon as `result` is
affine or a turn remains to be run. -/
theorem scalarMult_loop_state (a m : Int) :
    ∀ (fuel : Nat) (privkey : Int) (v result : el_point), privkey.toNat ≤ fuel →
      v.state = true → (result.state = true ∨ 0 < privkey) →
      (scalarMult_loop a m fuel privkey v result).state = true := by
  intro fuel
  induction fuel with
  | zero =>
    intro privkey v result hfuel _ h
    have hk : ¬ 0 < privkey := by omega
    simpa [scalarMult_loop] using h.resolve_right hk
  | succ fuel ih =>
    intro privkey v result hfuel hv h
    by_cases hk : 0 < privkey
    · simp only [scalarMult_loop, hk, if_true]
      have hv1 : (v.doubler a m).state = true := by rw [doubler_state]; exact hv
      have hdiv := tdiv_two_of_nonneg (le_of_lt hk)
      have hmod := tmod_two_of_nonneg (le_of_lt hk)
      refine ih _ _ _ (by rw [hdiv]; omega) hv1 ?_
      by_cases hodd : privkey.tmod 2 = 1
      · left
        rw [if_pos hodd]
        exact adder_state _ _ _ hv1
      · right
        rw [hdiv]
        rw [hmod] at hodd
        omega
    · simp only [scalarMult_loop, hk, if_false]
      exact h.resolve_right hk

/-- For an affine input and a scalar `n ≥ 1`, `scalarMult` returns an affine
point. -/
theorem scalarMult_state_of_pos (c : el_curve_ops) (n : Int) (P : el_point) (hn : 1 ≤ n)
    (hP : P.state = true) : (c.scalarMult n P).state = true := by
  have hdiv := tdiv_two_of_nonneg (show (0 : Int) ≤ n by omega)
  have hmod := tmod_two_of_nonneg (show (0 : Int) ≤ n by omega)
  simp only [el_curve_ops.scalarMult, hP, Bool.not_true, Bool.false_eq_true, if_false]
  refine scalarMult_loop_state _ _ _ _ _ _ (le_refl _) hP ?_
  by_cases hodd : n.tmod 2 = 1
  · left
    rw [if_pos hodd]
    exact hP
  · right
    rw [hdiv]
    rw [hmod] at hodd
    omega

theorem scalarMult_loop_traced_fst (a m : Int) :
    ∀ (fuel : Nat) (privkey : Int) (v result : el_point) (log : List point_op),
      (scalarMult_loop_traced a m fuel privkey v result log).1 =
        scalarMult_loop a m fuel privkey v result := by
  intro fuel
  induction fuel with
  | zero => intro privkey v result log; rfl
  | succ fuel ih =>
    intro privkey v result log
    by_cases hk : 0 < privkey
    · by_cases hodd : privkey.tmod 2 = 1
      · simp only [scalarMult_loop_traced, scalarMult_loop, hk, if_true, hodd, ih]
      · simp only [scalarMult_loop_traced, scalarMult_loop, hk, if_true, hodd, if_false, ih]
    · simp only [scalarMult_loop_traced, scalarMult_loop, hk, if_false]

/-- The instrumented `scalarMult` returns the point that `scalarMult` returns. -/
theorem scalarMult_traced_fst (c : el_curve_ops) (k : Int) (P : el_point) :
    (c.scalarMult_traced k P).1 = c.scalarMult k P := by
  unfold el_curve_ops.scalarMult_traced el_curve_ops.scalarMult
  split
  · rfl
  · exact scalarMult_loop_traced_fst _ _ _ _ _ _ _

/-- C10: for every curve and every point `P`, `scalarMult(0, P)` returns a
point at infinity (`state = false`): `P` itself when `P` is at infinity, the
default-constructed point otherwise; and the run makes no call to `doubler`
or `adder`. -/
theorem scalarMult_zero (c : el_curve_ops) (P : el_point) :
    (c.scalarMult 0 P).state = false ∧
      c.scalarMult 0 P = (if P.state then el_point.infinity else P) ∧
      c.scalarMult_traced 0 P = (c.scalarMult 0 P, []) := by
  cases hP : P.state with
  | false =>
    simp [el_curve_ops.scalarMult, el_curve_ops.scalarMult_traced, hP]
  | true =>
    have h1 : (0 : Int).tmod 2 = 0 := by decide
    have h2 : (0 : Int).tdiv 2 = 0 := by decide
    have h4 : (0 : Int).toNat = 0 := by decide
    simp [el_curve_ops.scalarMult, el_curve_ops.scalarMult_traced, hP, h1, h2, h4,
      scalarMult_loop, scalarMult_loop_traced, el_point.infinity]

/-! ## Curve membership is preserved by regular steps -/

theorem modEq_iff_zmod (p : Nat) (s t : Int) :
    s ≡ t [ZMOD p] ↔ ((s : Int) : ZMod p) = ((t : Int) : ZMod p) :=
  (ZMod.intCast_eq_intCast_iff s t p).symm

theorem not_dvd_of_emod_ne_zero {p t : Int} (h : t % p ≠ 0) : ¬ p ∣ t :=
  fun hd => h (Int.emod_eq_zero_of_dvd hd)

theorem el_point.eta_affine (P : el_point) (hP : P.state = true) :
    P = el_point.affine P.x P.y := by
  cases P with
  | mk x y s =>
    simp only at hP
    subst hP
    rfl

/-- The tangent construction: doubling an affine point of the curve whose `y`
is not divisible by the prime `p > 2` gives a point of the curve with
coordinates in `[0, p)`. -/
theorem doubler_on_curve (p : Nat) (hp : p.Prime) (hp2 : 2 < p) (a b : Int) (P : el_point)
    (hP : P.state = true) (hy : P.y % (p : Int) ≠ 0)
    (hE : el_curve_ops.on_curve ⟨a, b, p⟩ P) :
    el_curve_ops.on_curve ⟨a, b, p⟩ (P.doubler a p) ∧
      0 ≤ (P.doubler a p).x ∧ (P.doubler a p).x < p ∧
      0 ≤ (P.doubler a p).y ∧ (P.doubler a p).y < p := by
  have hspec := doubler_affine_spec p hp hp2 a P.x P.y (not_dvd_of_emod_ne_zero hy)
  rw [← el_point.eta_affine P hP] at hspec
  obtain ⟨_, hx0, hx1, hy0, hy1, ⟨c, _, _, hc⟩, _, hform⟩ := hspec
  obtain ⟨hnx, hny⟩ := hform c hc
  refine ⟨?_, hx0, hx1, hy0, hy1⟩
  unfold el_curve_ops.on_curve at hE ⊢
  simp only at hE ⊢
  rw [modEq_iff_zmod] at hE hc hnx hny ⊢
  push_cast at hE hc hnx hny ⊢
  rw [hny, hnx]
  linear_combination hE + ((c : ZMod p) ^ 2 - 3 * (P.x : ZMod p)) * hc

/-- The chord construction: adding two affine points of the curve whose `x`
coordinates differ modulo the prime `p` gives a point of the curve with
coordinates in `[0, p)`. -/
theorem adder_on_curve (p : Nat) (hp : p.Prime) (a b : Int) (P Q : el_point)
    (hP : P.state = true) (hQ : Q.state = true) (hx : (Q.x - P.x) % (p : Int) ≠ 0)
    (hEP : el_curve_ops.on_curve ⟨a, b, p⟩ P) (hEQ : el_curve_ops.on_curve ⟨a, b, p⟩ Q) :
    el_curve_ops.on_curve ⟨a, b, p⟩ (P.adder Q p) ∧
      0 ≤ (P.adder Q p).x ∧ (P.adder Q p).x < p ∧
      0 ≤ (P.adder Q p).y ∧ (P.adder Q p).y < p := by
  haveI : Fact p.Prime := ⟨hp⟩
  have hnd := not_dvd_of_emod_ne_zero hx
  have hspec := adder_affine_spec p hp P.x P.y Q.x Q.y hnd
  rw [← el_point.eta_affine P hP, ← el_point.eta_affine Q hQ] at hspec
  obtain ⟨_, hx0, hx1, hy0, hy1, ⟨c, _, _, hc⟩, _, hform⟩ := hspec
  obtain ⟨hnx, hny⟩ := hform c hc
  refine ⟨?_, hx0, hx1, hy0, hy1⟩
  have hne : ((Q.x : ZMod p) - (P.x : ZMod p)) ≠ 0 := by
    intro h0
    apply hnd
    rw [← ZMod.intCast_zmod_eq_zero_iff_dvd]
    push_cast
    exact h0
  unfold el_curve_ops.on_curve at hEP hEQ ⊢
  simp only at hEP hEQ ⊢
  rw [modEq_iff_zmod] at hEP hEQ hc hnx hny ⊢
  push_cast at hEP hEQ hc hnx hny ⊢
  rw [hny, hnx]
  apply mul_left_cancel₀ hne
  linear_combination
    ((Q.x : ZMod p) - ((c : ZMod p) ^ 2 - P.x - Q.x)) * hEP +
    (((c : ZMod p) ^ 2 - P.x - Q.x) - P.x) * hEQ +
    (((c : ZMod p) ^ 2 - P.x - Q.x) - P.x) *
      (2 * (Q.y : ZMod p) + ((c : ZMod p) * (Q.x - P.x) - (Q.y - P.y))) * hc

/-! ## Regular runs of `scalarMult` stay on the curve -/

/-- Loop invariant of `scalarMult` on a regular run: `v` is an affine point of
the curve, and `result`, once affine, is a point of the curve with
non-negative coordinates. -/
theorem scalarMult_loop_on_curve (p : Nat) (hp : p.Prime) (hp2 : 2 < p) (a b : Int) :
    ∀ (fuel : Nat) (privkey : Int) (v result : el_point),
      v.state = true → el_curve_ops.on_curve ⟨a, b, p⟩ v →
      (result.state = true →
        el_curve_ops.on_curve ⟨a, b, p⟩ result ∧ 0 ≤ result.x ∧ 0 ≤ result.y) →
      scalarMult_loop_regular a p fuel privkey v result = true →
      (scalarMult_loop a p fuel privkey v result).state = true →
      el_curve_ops.on_curve ⟨a, b, p⟩ (scalarMult_loop a p fuel privkey v result) ∧
        0 ≤ (scalarMult_loop a p fuel privkey v result).x ∧
        0 ≤ (scalarMult_loop a p fuel privkey v result).y := by
  intro fuel
  induction fuel with
  | zero =>
    intro privkey v result _ _ hres _ hst
    exact hres hst
  | succ fuel ih =>
    intro privkey v result hv hEv hres hreg hst
    by_cases hk : 0 < privkey
    · simp only [scalarMult_loop, hk, if_true] at hst ⊢
      simp only [scalarMult_loop_regular, hk, if_true, Bool.and_eq_true,
        decide_eq_true_eq] at hreg
      obtain ⟨⟨hy, hadd⟩, hrest⟩ := hreg
      obtain ⟨hE1, hx0, _, hy0, _⟩ := doubler_on_curve p hp hp2 a b v hv hy hEv
      have hv1 : (v.doubler a p).state = true := by rw [doubler_state]; exact hv
      refine ih _ _ _ hv1 hE1 ?_ hrest hst
      intro hst1
      by_cases hodd : privkey.tmod 2 = 1
      · rw [if_pos hodd] at hst1 ⊢
        cases hrs : result.state with
        | false =>
          rw [adder_of_infinity _ _ _ hrs hv1]
          exact ⟨hE1, hx0, hy0⟩
        | true =>
          have hne : ((v.doubler a p).x - result.x) % (p : Int) ≠ 0 := by
            simpa [hodd, hrs] using hadd
          obtain ⟨hE2, hx2, _, hy2, _⟩ :=
            adder_on_curve p hp a b result (v.doubler a p) hrs hv1 hne (hres hrs).1 hE1
          exact ⟨hE2, hx2, hy2⟩
      · rw [if_neg hodd] at hst1 ⊢
        exact hres hst1
    · simp only [scalarMult_loop, hk, if_false] at hst ⊢
      exact hres hst

/-- On a regular run from an affine point of the curve with non-negative
coordinates, `scalarMult` with a scalar `k ≥ 1` returns an affine point of the
curve with non-negative coordinates. -/
theorem scalarMult_on_curve (p : Nat) (hp : p.Prime) (hp2 : 2 < p) (a b : Int) (P : el_point)
    (hP : P.state = true) (hx : 0 ≤ P.x) (hy : 0 ≤ P.y)
    (hE : el_curve_ops.on_curve ⟨a, b, p⟩ P) (k : Int) (hk : 1 ≤ k)
    (hreg : el_curve_ops.scalarMult_regular ⟨a, b, p⟩ k P = true) :
    el_curve_ops.on_curve ⟨a, b, p⟩ (el_curve_ops.scalarMult ⟨a, b, p⟩ k P) ∧
      0 ≤ (el_curve_ops.scalarMult ⟨a, b, p⟩ k P).x ∧
      0 ≤ (el_curve_ops.scalarMult ⟨a, b, p⟩ k P).y := by
  have hst := scalarMult_state_of_pos ⟨a, b, p⟩ k P hk hP
  simp only [el_curve_ops.scalarMult, hP, Bool.not_true, Bool.false_eq_true, if_false]
    at hst ⊢
  simp only [el_curve_ops.scalarMult_regular] at hreg
  refine scalarMult_loop_on_curve p hp hp2 a b _ _ _ _ hP hE ?_ hreg hst
  intro hst0
  by_cases hodd : k.tmod 2 = 1
  · rw [if_pos hodd]
    exact ⟨hE, hx, hy⟩
  · rw [if_neg hodd] at hst0
    exact absurd hst0 (by simp [el_point.infinity])

/-- On unbounded integers: for every prime `p > 3`, every curve `(a, b)` with `a`, `b`
in `[0, p)`, every affine point `P` with coordinates in `[0, p)` that passes
`verify`, and every scalar `k ≥ 1` whose run is regular (no `doubler` call on
a point with `y ≡ 0`, no `adder` call on two affine points with congruent
`x`), the point returned by `scalarMult(k, P)` passes `verify`. -/
theorem scalarMult_regular_stays_on_curve (p : Nat) (hp : p.Prime) (hp3 : 3 < p) (a b : Int)
    (ha : 0 ≤ a ∧ a < p) (hb : 0 ≤ b ∧ b < p) (P : el_point) (hP : P.state = true)
    (hx : 0 ≤ P.x ∧ P.x < p) (hy : 0 ≤ P.y ∧ P.y < p)
    (hver : el_curve_ops.verify ⟨a, b, p⟩ P = true) (k : Int) (hk : 1 ≤ k)
    (hreg : el_curve_ops.scalarMult_regular ⟨a, b, p⟩ k P = true) :
    el_curve_ops.verify ⟨a, b, p⟩ (el_curve_ops.scalarMult ⟨a, b, p⟩ k P) = true := by
  have h2Z : (2 : Int) ≤ (p : Int) := by exact_mod_cast hp.two_le
  have hE : el_curve_ops.on_curve ⟨a, b, p⟩ P :=
    (verify_iff_of_nonneg ⟨a, b, p⟩ P h2Z
      (add_nonneg (mul_nonneg ha.1 hx.1) hb.1)).1 hver
  obtain ⟨hE1, hx1, _⟩ :=
    scalarMult_on_curve p hp (by omega) a b P hP hx.1 hy.1 hE k hk hreg
  exact (verify_iff_of_nonneg ⟨a, b, p⟩ _ h2Z (add_nonneg (mul_nonneg ha.1 hx1) hb.1)).2 hE1

/-- On `y^2 = x^3 + 2 x + 2` modulo `17` the run `scalarMult(5, (5, 1))` is
regular and returns `(9, 16)`, which passes `verify`, as an instance of
`scalarMult_regular_stays_on_curve`. -/
theorem scalarMult_regular_stays_on_curve_witness :
    el_curve_ops.scalarMult ⟨2, 2, 17⟩ 5 (el_point.affine 5 1) = el_point.affine 9 16 ∧
    el_curve_ops.verify ⟨2, 2, ((17 : Nat) : Int)⟩
      (el_curve_ops.scalarMult ⟨2, 2, ((17 : Nat) : Int)⟩ 5 (el_point.affine 5 1)) = true :=
  ⟨by decide, scalarMult_regular_stays_on_curve 17 (by norm_num) (by norm_num) 2 2
    (by decide) (by decide) (el_point.affine 5 1) rfl (by decide) (by decide) (by decide) 5
    (by decide) (by decide)⟩

/-- On unbounded integers, a failing input: on `y^2 = x^3 + 4` modulo the prime `5`, the affine
point `(1, 0)` has coordinates in `[0, 5)` and passes `verify`, but
`scalarMult(2, (1, 0))` is `(3, 0)`, which fails `verify`: `doubler` runs the
tangent formula with the slope `0` it gets from `modulo_inverse(0, 5) = 0`. -/
theorem scalarMult_leaves_curve :
    Nat.Prime 5 ∧ 3 < 5 ∧ (1 : Int) ≤ 2 ∧
    (el_point.affine 1 0).state = true ∧
    (0 ≤ (el_point.affine 1 0).x ∧ (el_point.affine 1 0).x < 5) ∧
    (0 ≤ (el_point.affine 1 0).y ∧ (el_point.affine 1 0).y < 5) ∧
    el_curve_ops.verify ⟨0, 4, 5⟩ (el_point.affine 1 0) = true ∧
    el_curve_ops.scalarMult ⟨0, 4, 5⟩ 2 (el_point.affine 1 0) = el_point.affine 3 0 ∧
    el_curve_ops.verify ⟨0, 4, 5⟩
      (el_curve_ops.scalarMult ⟨0, 4, 5⟩ 2 (el_point.affine 1 0)) = false := by
  refine ⟨by norm_num, by norm_num, by norm_num, rfl, ?_, ?_, ?_, ?_, ?_⟩ <;> decide

/-! ## The order of a point -/

/-- On unbounded integers: for every curve, every affine point `P` and every scalar
`n ≥ 1`, whatever the order of `P`, `scalarMult(n, P)` returns an affine point
(`state = true`) and never the point at infinity. -/
theorem scalarMult_never_infinity (c : el_curve_ops) (n : Int) (P : el_point) (hn : 1 ≤ n)
    (hP : P.state = true) : (c.scalarMult n P).state = true :=
  scalarMult_state_of_pos c n P hn hP

/-- The point `(1, 0)` of order two on `y^2 = x^3 + 4` modulo `5`: doubling it
with `scalarMult` gives an affine point. -/
theorem scalarMult_never_infinity_witness :
    (el_curve_ops.scalarMult ⟨0, 4, 5⟩ 2 (el_point.affine 1 0)).state = true :=
  scalarMult_never_infinity ⟨0, 4, 5⟩ 2 (el_point.affine 1 0) (by decide) rfl

/-- On unbounded integers, a failing input: on `y^2 = x^3 + 4` modulo `5` the point `(1, 0)` is a
point of the curve that passes `verify` and has order `2` in the
chord-and-tangent group of the curve, yet `scalarMult(2, (1, 0))` is the
affine point `(3, 0)` and not the point at infinity. -/
theorem scalarMult_order_two_not_infinity :
    ∃ h : ((⟨0, 4, 5⟩ : el_curve_ops).weierstrass 5).toAffine.Nonsingular
        (((el_point.affine 1 0).x : Int) : ZMod 5) (((el_point.affine 1 0).y : Int) : ZMod 5),
      addOrderOf (WeierstrassCurve.Affine.Point.some h) = 2 ∧
      el_curve_ops.verify ⟨0, 4, 5⟩ (el_point.affine 1 0) = true ∧
      el_curve_ops.scalarMult ⟨0, 4, 5⟩ 2 (el_point.affine 1 0) = el_point.affine 3 0 ∧
      (el_curve_ops.scalarMult ⟨0, 4, 5⟩ 2 (el_point.affine 1 0)).state ≠ false := by
  have ns : ((⟨0, 4, 5⟩ : el_curve_ops).weierstrass 5).toAffine.Nonsingular
      (((el_point.affine 1 0).x : Int) : ZMod 5) (((el_point.affine 1 0).y : Int) : ZMod 5) := by
    rw [WeierstrassCurve.Affine.nonsingular_iff, WeierstrassCurve.Affine.equation_iff]
    simp only [el_curve_ops.weierstrass, el_point.affine]
    decide
  refine ⟨ns, ?_, by decide, by decide, by decide⟩
  haveI : Fact (Nat.Prime 2) := ⟨by norm_num⟩
  refine addOrderOf_eq_prime ?_ (WeierstrassCurve.Affine.Point.some_ne_zero ns)
  rw [two_nsmul]
  exact WeierstrassCurve.Affine.Point.add_self_of_Y_eq
    (by simp [WeierstrassCurve.Affine.negY, el_curve_ops.weierstrass, el_point.affine])

/-! ## Reduced coordinates -/

/-- The loop of `modulo_power` leaves the accumulator strictly between `-m`
and `m` as soon as it starts there or at least one turn is run: the last turn
run always has an odd exponent and stores a remainder. -/
theorem modulo_power_loop_range (base m : Int) (hm : 0 < m) :
    ∀ (fuel n : Nat) (v a : Int) (counter : Nat), n ≤ fuel →
      ((-m < a ∧ a < m) ∨ 1 ≤ n) →
      -m < modulo_power_loop base m fuel (n : Int) v a counter ∧
        modulo_power_loop base m fuel (n : Int) v a counter < m := by
  intro fuel
  induction fuel with
  | zero =>
    intro n v a counter hn h
    have h0 : n = 0 := by omega
    subst h0
    simpa [modulo_power_loop] using h
  | succ fuel ih =>
    intro n v a counter hn h
    rcases Nat.eq_zero_or_pos n with h0 | hpos
    · subst h0
      simpa [modulo_power_loop] using h
    · have hposZ : (0 : Int) < (n : Int) := by exact_mod_cast hpos
      simp only [modulo_power_loop, hposZ, if_true, natCast_tdiv_two, natCast_tmod_two]
      refine ih (n / 2) _ _ _ (by omega) ?_
      rcases Nat.mod_two_eq_zero_or_one n with hpar | hpar
      · right
        omega
      · left
        have heq : (((n % 2 : Nat) : Int) = 1) := by rw [hpar]; norm_num
        rw [if_pos heq]
        exact ⟨neg_lt_tmod _ hm, tmod_lt _ hm⟩

/-- For a positive modulus, `modulo_power` returns a value of `[0, m)` unless
the exponent is `0` and the modulus is `1`. -/
theorem modulo_power_range (base : Int) (n : Nat) {m : Int} (hm : 0 < m)
    (h : 2 ≤ m ∨ 1 ≤ n) :
    0 ≤ modulo_power base (n : Int) m ∧ modulo_power base (n : Int) m < m := by
  have hr : -m < modulo_power_loop base m n (n : Int) 0 1 0 ∧
      modulo_power_loop base m n (n : Int) 0 1 0 < m := by
    refine modulo_power_loop_range base m hm n n 0 1 0 (le_refl _) ?_
    rcases h with h | h
    · left
      omega
    · right
      exact h
  unfold modulo_power
  rw [Int.toNat_natCast]
  simp only
  split_ifs with hneg <;> omega

/-- For a positive modulus and an exponent `n ≥ 1`, `modulo_power` returns
the least non-negative residue of `base ^ n`. -/
theorem modulo_power_of_pos (base : Int) (n : Nat) {m : Int} (hm : 0 < m) (hn : 1 ≤ n) :
    modulo_power base (n : Int) m = base ^ n % m := by
  rcases lt_or_le m 2 with h1 | h2
  · have hm1 : m = 1 := by omega
    subst hm1
    have hr := modulo_power_range base n (show (0 : Int) < 1 by norm_num) (Or.inr hn)
    rw [Int.emod_one]
    omega
  · exact modulo_power_natCast base n h2

theorem adder_state_eq (P Q : el_point) (m : Int) :
    (P.adder Q m).state = (P.state || Q.state) := by
  cases hQ : Q.state with
  | false =>
    have h : P.adder Q m = P := by simp [el_point.adder, hQ]
    rw [h]
    simp
  | true =>
    rw [adder_state P Q m hQ]
    simp

/-- C13: `doubler` never changes `state`, and `adder` leaves `state` equal to
`self.state || q.state`; hence an affine point is still affine after
`doubler(a, p)` and after `adder(q, p)`, and the only transition is from
infinity to affine, made by `adder` with an affine operand. -/
theorem affine_stays_affine (P Q : el_point) (a p : Int) :
    (P.doubler a p).state = P.state ∧
    (P.adder Q p).state = (P.state || Q.state) ∧
    (P.state = true → (P.doubler a p).state = true ∧ (P.adder Q p).state = true) := by
  refine ⟨doubler_state P a p, adder_state_eq P Q p, fun hP => ⟨?_, ?_⟩⟩
  · rw [doubler_state]
    exact hP
  · rw [adder_state_eq, hP]
    rfl

/-- An affine point stays affine under `doubler` and `adder`: the third part
of `affine_stays_affine` at the point `(5, 1)` modulo `17`. -/
theorem affine_stays_affine_witness :
    ((el_point.affine 5 1).doubler 2 17).state = true ∧
      ((el_point.affine 5 1).adder el_point.infinity 17).state = true :=
  (affine_stays_affine (el_point.affine 5 1) el_point.infinity 2 17).2.2 rfl

/-! ## `verify` at the point at infinity -/

theorem tmod_eq_zero_iff_dvd (b p : Int) : b.tmod p = 0 ↔ p ∣ b :=
  ⟨Int.dvd_of_tmod_eq_zero, Int.tmod_eq_zero_of_dvd⟩

theorem modulo_power_zero_base (p : Int) (hp : 0 < p) (n : Nat) (hn : 1 ≤ n) :
    modulo_power 0 (n : Int) p = 0 := by
  rw [modulo_power_of_pos 0 n hp hn, zero_pow (by omega)]
  simp

/-- C14: `verify` does not read `state`; on the default-constructed point at
infinity `(0, 0)`, which is also what `scalarMult(0, P)` returns for an affine
`P`, it evaluates the curve equation at `x = y = 0`, so for every modulus
`p > 0` it returns `true` if and only if `p` divides `b`. -/
theorem verify_infinity (a b p : Int) (hp : 0 < p) :
    (el_curve_ops.verify ⟨a, b, p⟩ el_point.infinity = true ↔ p ∣ b) ∧
    (∀ (x y : Int) (s t : Bool),
      el_curve_ops.verify ⟨a, b, p⟩ ⟨x, y, s⟩ = el_curve_ops.verify ⟨a, b, p⟩ ⟨x, y, t⟩) ∧
    (∀ P : el_point, P.state = true →
      el_curve_ops.scalarMult ⟨a, b, p⟩ 0 P = el_point.infinity) := by
  have h2 : modulo_power 0 2 p = 0 := by
    simpa using modulo_power_zero_base p hp 2 (by norm_num)
  have h3 : modulo_power 0 3 p = 0 := by
    simpa using modulo_power_zero_base p hp 3 (by norm_num)
  refine ⟨?_, fun x y s t => rfl, ?_⟩
  · simp only [el_curve_ops.verify, el_point.infinity, h2, h3, mul_zero, zero_add,
      decide_eq_true_eq]
    rw [eq_comm, tmod_eq_zero_iff_dvd]
  · intro P hP
    have h1 : (0 : Int).tmod 2 = 0 := by decide
    have h4 : (0 : Int).tdiv 2 = 0 := by decide
    have h5 : (0 : Int).toNat = 0 := by decide
    simp [el_curve_ops.scalarMult, hP, h1, h4, h5, scalarMult_loop]

/-- On `y^2 = x^3 + 2 x + 34` modulo `17` the point at infinity passes
`verify`, and `17` divides `34`. -/
theorem verify_infinity_witness :
    el_curve_ops.verify ⟨2, 34, 17⟩ el_point.infinity = true ∧
    ((el_curve_ops.verify ⟨2, 34, 17⟩ el_point.infinity = true ↔ (17 : Int) ∣ 34) ∧
    (∀ (x y : Int) (s t : Bool),
      el_curve_ops.verify ⟨2, 34, 17⟩ ⟨x, y, s⟩ = el_curve_ops.verify ⟨2, 34, 17⟩ ⟨x, y, t⟩) ∧
    (∀ P : el_point, P.state = true →
      el_curve_ops.scalarMult ⟨2, 34, 17⟩ 0 P = el_point.infinity)) :=
  ⟨by decide, verify_infinity 2 34 17 (by decide)⟩

/-! ## Curve membership of the doubled point and of the sum -/

theorem emod_ne_zero_of_not_dvd {p t : Int} (h : ¬ p ∣ t) : t % p ≠ 0 :=
  fun h0 => h (Int.dvd_of_emod_eq_zero h0)

/-- On unbounded integers: for every prime `p > 2`, all integers `a`, `b` and every affine point
`(x, y)` of the curve `y^2 ≡ x^3 + a x + b (mod p)` with `y` not divisible by
`p`, the coordinates `(x', y')` left by `doubler(a, p)` satisfy
`y'^2 ≡ x'^3 + a x' + b (mod p)`. -/
theorem doubler_preserves_curve (p : Nat) (hp : p.Prime) (hp2 : 2 < p) (a b x y : Int)
    (hy : ¬ (p : Int) ∣ y) (hE : y ^ 2 ≡ x ^ 3 + a * x + b [ZMOD p]) :
    ((el_point.affine x y).doubler a p).y ^ 2 ≡
      ((el_point.affine x y).doubler a p).x ^ 3 + a * ((el_point.affine x y).doubler a p).x + b
        [ZMOD p] :=
  (doubler_on_curve p hp hp2 a b (el_point.affine x y) rfl (emod_ne_zero_of_not_dvd hy) hE).1

/-- Doubling the point `(5, 1)` of `y^2 = x^3 + 2 x + 2` modulo `17` gives
`(6, 3)`, which satisfies the curve equation. -/
theorem doubler_preserves_curve_witness :
    (el_point.affine 5 1).doubler 2 17 = el_point.affine 6 3 ∧
    ((el_point.affine 5 1).doubler 2 ((17 : Nat) : Int)).y ^ 2 ≡
      ((el_point.affine 5 1).doubler 2 ((17 : Nat) : Int)).x ^ 3 +
        2 * ((el_point.affine 5 1).doubler 2 ((17 : Nat) : Int)).x + 2 [ZMOD ((17 : Nat) : Int)] :=
  ⟨by decide, doubler_preserves_curve 17 (by norm_num) (by norm_num) 2 2 5 1 (by decide)
    (by decide)⟩

/-- On unbounded integers: for every prime `p`, all integers `a`, `b` and all affine points
`P = (x, y)`, `Q = (qx, qy)` of the curve `y^2 ≡ x^3 + a x + b (mod p)` with
`qx - x` not divisible by `p`, the coordinates `(x', y')` left in `P` by
`P.adder(Q, p)` satisfy `y'^2 ≡ x'^3 + a x' + b (mod p)`. -/
theorem adder_preserves_curve (p : Nat) (hp : p.Prime) (a b x y qx qy : Int)
    (hx : ¬ (p : Int) ∣ qx - x) (hEP : y ^ 2 ≡ x ^ 3 + a * x + b [ZMOD p])
    (hEQ : qy ^ 2 ≡ qx ^ 3 + a * qx + b [ZMOD p]) :
    ((el_point.affine x y).adder (el_point.affine qx qy) p).y ^ 2 ≡
      ((el_point.affine x y).adder (el_point.affine qx qy) p).x ^ 3 +
        a * ((el_point.affine x y).adder (el_point.affine qx qy) p).x + b [ZMOD p] :=
  (adder_on_curve p hp a b (el_point.affine x y) (el_point.affine qx qy) rfl rfl
    (emod_ne_zero_of_not_dvd hx) hEP hEQ).1

/-- Adding the points `(5, 1)` and `(6, 3)` of `y^2 = x^3 + 2 x + 2` modulo
`17` gives `(10, 6)`, which satisfies the curve equation. -/
theorem adder_preserves_curve_witness :
    (el_point.affine 5 1).adder (el_point.affine 6 3) 17 = el_point.affine 10 6 ∧
    ((el_point.affine 5 1).adder (el_point.affine 6 3) ((17 : Nat) : Int)).y ^ 2 ≡
      ((el_point.affine 5 1).adder (el_point.affine 6 3) ((17 : Nat) : Int)).x ^ 3 +
        2 * ((el_point.affine 5 1).adder (el_point.affine 6 3) ((17 : Nat) : Int)).x + 2
        [ZMOD ((17 : Nat) : Int)] :=
  ⟨by decide, adder_preserves_curve 17 (by norm_num) 2 2 5 1 6 3 (by decide) (by decide)
    (by decide)⟩

/-! ## Commutativity of `adder` -/

theorem eq_of_modEq_of_range {s t p : Int} (h : s ≡ t [ZMOD p]) (hs0 : 0 ≤ s) (hs1 : s < p)
    (ht0 : 0 ≤ t) (ht1 : t < p) : s = t := by
  have h1 := Int.emod_eq_of_lt hs0 hs1
  have h2 := Int.emod_eq_of_lt ht0 ht1
  have h3 : s % p = t % p := h
  omega

/-- On unbounded integers: for every prime `p` and all affine points `P`, `Q` with integer
coordinates whose `x` coordinates differ modulo `p`, `P.adder(Q, p)` and
`Q.adder(P, p)` leave exactly the same `x` and the same `y` (and both points
affine). -/
theorem adder_comm_of_distinct_x (p : Nat) (hp : p.Prime) (x y qx qy : Int)
    (hx : ¬ (p : Int) ∣ qx - x) :
    ((el_point.affine x y).adder (el_point.affine qx qy) p).x =
      ((el_point.affine qx qy).adder (el_point.affine x y) p).x ∧
    ((el_point.affine x y).adder (el_point.affine qx qy) p).y =
      ((el_point.affine qx qy).adder (el_point.affine x y) p).y ∧
    (el_point.affine x y).adder (el_point.affine qx qy) p =
      (el_point.affine qx qy).adder (el_point.affine x y) p := by
  have h2Z : (2 : Int) ≤ (p : Int) := by exact_mod_cast hp.two_le
  have hx2 : ¬ (p : Int) ∣ x - qx := by
    intro h
    apply hx
    have : qx - x = -(x - qx) := by ring
    rw [this]
    exact (dvd_neg).2 h
  obtain ⟨hc0, hc1, hc2, hc3⟩ :=
    slope_spec p hp (qx - x) (qy - y) ((qy - y) % (p : Int)) hx (Int.mod_modEq _ _)
  obtain ⟨hd0, hd1, hd2, _⟩ :=
    slope_spec p hp (x - qx) (y - qy) ((y - qy) % (p : Int)) hx2 (Int.mod_modEq _ _)
  have hkey : ((y - qy) % (p : Int) * modulo_inverse (x - qx) p) % p * (qx - x) ≡ qy - y
      [ZMOD p] := by
    have h := hd2.neg
    have e1 : -(((y - qy) % (p : Int) * modulo_inverse (x - qx) p) % p * (x - qx)) =
        ((y - qy) % (p : Int) * modulo_inverse (x - qx) p) % p * (qx - x) := by ring
    have e2 : -(y - qy) = qy - y := by ring
    rw [e1, e2] at h
    exact h
  have hcd : ((y - qy) % (p : Int) * modulo_inverse (x - qx) p) % p =
      ((qy - y) % (p : Int) * modulo_inverse (qx - x) p) % p :=
    eq_of_modEq_of_range (hc3 _ hkey) hd0 hd1 hc0 hc1
  have hrec : (el_point.affine x y).adder (el_point.affine qx qy) p =
      (el_point.affine qx qy).adder (el_point.affine x y) p := by
    rw [el_point.affine, el_point.affine, adder_affine_eq x y qx qy p _ h2Z rfl,
      adder_affine_eq qx qy x y p _ h2Z rfl, hcd]
    set c := ((qy - y) % (p : Int) * modulo_inverse (qx - x) p) % p with hcdef
    have hxeq : (c * c - qx - x) % (p : Int) = (c * c - x - qx) % p := by
      congr 1
      ring
    rw [hxeq]
    have hyeq : (c * (x - (c * c - x - qx) % (p : Int)) - y) % (p : Int) =
        (c * (qx - (c * c - x - qx) % (p : Int)) - qy) % p := by
      have hmod : c * (x - (c * c - x - qx) % (p : Int)) - y ≡
          c * (qx - (c * c - x - qx) % (p : Int)) - qy [ZMOD p] := by
        have h := (hc2.neg).add_left (c * (qx - (c * c - x - qx) % (p : Int)) - y)
        have e1 : c * (qx - (c * c - x - qx) % (p : Int)) - y + -(c * (qx - x)) =
            c * (x - (c * c - x - qx) % (p : Int)) - y := by ring
        have e2 : c * (qx - (c * c - x - qx) % (p : Int)) - y + -(qy - y) =
            c * (qx - (c * c - x - qx) % (p : Int)) - qy := by ring
        rw [e1, e2] at h
        exact h
      exact hmod
    rw [hyeq]
  exact ⟨by rw [hrec], by rw [hrec], hrec⟩

/-- Adding `(5, 1)` and `(6, 3)` modulo `17` in either order gives `(10, 6)`. -/
theorem adder_comm_of_distinct_x_witness :
    (el_point.affine 6 3).adder (el_point.affine 5 1) 17 = el_point.affine 10 6 ∧
    (((el_point.affine 5 1).adder (el_point.affine 6 3) ((17 : Nat) : Int)).x =
      ((el_point.affine 6 3).adder (el_point.affine 5 1) ((17 : Nat) : Int)).x ∧
    ((el_point.affine 5 1).adder (el_point.affine 6 3) ((17 : Nat) : Int)).y =
      ((el_point.affine 6 3).adder (el_point.affine 5 1) ((17 : Nat) : Int)).y ∧
    (el_point.affine 5 1).adder (el_point.affine 6 3) ((17 : Nat) : Int) =
      (el_point.affine 6 3).adder (el_point.affine 5 1) ((17 : Nat) : Int)) :=
  ⟨by decide, adder_comm_of_distinct_x 17 (by norm_num) 5 1 6 3 (by decide)⟩

/-! ## Even scalars -/

theorem modulo_inverse_of_dvd (v : Int) {m : Int} (hm : 3 ≤ m) (hv : m ∣ v) :
    modulo_inverse v m = 0 := by
  rw [modulo_inverse_eq v (by omega)]
  have hne : (m - 2).toNat ≠ 0 := by omega
  exact Int.emod_eq_zero_of_dvd (dvd_pow hv hne)

/-- When the modulus `m ≥ 3` divides `qx - x`, `adder` runs the chord formula
with slope `0`. -/
theorem adder_degenerate_eq (x y qx qy : Int) {m : Int} (hm : 3 ≤ m) (hx : m ∣ qx - x) :
    (el_point.affine x y).adder (el_point.affine qx qy) m =
      ⟨(-x - qx) % m, (-y) % m, true⟩ := by
  rw [el_point.affine, el_point.affine, adder_affine_eq x y qx qy m 0 (by omega)
    (by rw [modulo_inverse_of_dvd _ hm hx]; simp)]
  simp

/-- On unbounded integers: for every modulus `m ≥ 3`, `modulo_inverse(v, m)` is `0`
whenever `m` divides `v`; hence for affine points `(x, y)` and `(qx, qy)` with
`qx ≡ x (mod m)`, `adder` leaves the first point affine with coordinates
`((-x - qx) mod m, (-y) mod m)`, both in `[0, m)` and independent of `qy`, so
adding a point to its negation never gives infinity; and adding a point to
itself gives a result that does not depend on the curve parameter `a`, which
for a prime `m` and `y` not divisible by `m` is the `doubler` result exactly
when `m` divides `3 x^2 + a`. -/
theorem adder_degenerate (m : Nat) (hm : 3 ≤ m) (x y qx qy : Int)
    (hx : (m : Int) ∣ qx - x) :
    (∀ v : Int, (m : Int) ∣ v → modulo_inverse v m = 0) ∧
    (el_point.affine x y).adder (el_point.affine qx qy) m =
      ⟨(-x - qx) % m, (-y) % m, true⟩ ∧
    ((el_point.affine x y).adder (el_point.affine qx qy) m).state = true ∧
    (0 ≤ (-x - qx) % (m : Int) ∧ (-x - qx) % (m : Int) < m) ∧
    (0 ≤ (-y) % (m : Int) ∧ (-y) % (m : Int) < m) ∧
    (∀ qz : Int, (el_point.affine x y).adder (el_point.affine qx qz) m =
      (el_point.affine x y).adder (el_point.affine qx qy) m) ∧
    (∀ a : Int, m.Prime → ¬ (m : Int) ∣ y →
      ((el_point.affine x y).adder (el_point.affine x y) m =
        (el_point.affine x y).doubler a m ↔ (m : Int) ∣ 3 * x ^ 2 + a)) := by
  have hmZ : (3 : Int) ≤ (m : Int) := by exact_mod_cast hm
  have hm0 : (0 : Int) < (m : Int) := by omega
  have hadd := adder_degenerate_eq x y qx qy hmZ hx
  refine ⟨fun v hv => modulo_inverse_of_dvd v hmZ hv, hadd, by rw [hadd],
    ⟨Int.emod_nonneg _ (by omega), Int.emod_lt_of_pos _ hm0⟩,
    ⟨Int.emod_nonneg _ (by omega), Int.emod_lt_of_pos _ hm0⟩, ?_, ?_⟩
  · intro qz
    rw [hadd, adder_degenerate_eq x y qx qz hmZ hx]
  · intro a hp hy
    have hself := adder_degenerate_eq x y x y hmZ (by simp)
    have hden := prime_not_dvd_two_mul m hp (by omega) y hy
    have hn0 : (3 * (x ^ 2 % (m : Int)) + a) % m ≡ 3 * x ^ 2 + a [ZMOD m] :=
      (Int.mod_modEq _ _).trans (((Int.mod_modEq _ _).mul_left 3).add_right a)
    obtain ⟨hc0, hc1, hc2, hc3⟩ := slope_spec m hp (2 * y) (3 * x ^ 2 + a) _ hden hn0
    have hdbl := doubler_affine_eq x y a m _ (by omega) rfl
    rw [el_point.affine] at hself ⊢
    rw [hself, hdbl]
    set c0 := ((3 * (x ^ 2 % (m : Int)) + a) % m * modulo_inverse (2 * y) m) % m with hc0def
    constructor
    · intro heq
      have hxeq : (-x - x) % (m : Int) = (c0 * c0 - 2 * x) % m := by
        have := congrArg el_point.x heq
        simpa using this
      have hdvd : (m : Int) ∣ c0 * c0 := by
        have h1 : (m : Int) ∣ (c0 * c0 - 2 * x) - (-x - x) := (Int.ModEq.dvd hxeq)
        have e : (c0 * c0 - 2 * x) - (-x - x) = c0 * c0 := by ring
        rw [e] at h1
        exact h1
      have hc0dvd : (m : Int) ∣ c0 := by
        rcases (Nat.prime_iff_prime_int.mp hp).dvd_or_dvd hdvd with h | h <;> exact h
      have hzero : c0 = 0 := by
        have := Int.emod_eq_zero_of_dvd hc0dvd
        have h2 := Int.emod_eq_of_lt hc0 hc1
        omega
      rw [hzero] at hc2
      have h3 : (0 : Int) ≡ 3 * x ^ 2 + a [ZMOD m] := by simpa using hc2
      exact (Int.modEq_zero_iff_dvd).1 h3.symm
    · intro hdvd
      have h0 : (0 : Int) * (2 * y) ≡ 3 * x ^ 2 + a [ZMOD m] := by
        rw [zero_mul]
        exact ((Int.modEq_zero_iff_dvd).2 hdvd).symm
      have hzero : c0 = 0 :=
        (eq_of_modEq_of_range (hc3 0 h0) (le_refl _) hm0 hc0 hc1).symm
      rw [hzero]
      have e1 : (-x - x) = (0 * 0 - 2 * x) := by ring
      have e2 : 0 * (x - (-x - x) % (m : Int)) - y = -y := by ring
      rw [← e1, e2]

/-- Adding `(5, 1)` to itself modulo `17` gives `(7, 16)`, not the `doubler`
result `(6, 3)`. -/
theorem adder_degenerate_witness :
    (el_point.affine 5 1).adder (el_point.affine 5 1) 17 = el_point.affine 7 16 ∧
    (el_point.affine 5 1).doubler 2 17 = el_point.affine 6 3 ∧
    ((el_point.affine 5 1).adder (el_point.affine 5 1) ((17 : Nat) : Int)).state = true :=
  ⟨by decide, by decide,
    (adder_degenerate 17 (by norm_num) 5 1 5 1 (by decide)).2.2.1⟩

/-- On unbounded integers, a failing input: on `y^2 = x^3 + 1` modulo `5` the tangent at
`(0, 1)` has slope `0`, so adding `(0, 1)` to itself with `adder` gives
`(0, 4)`, which is exactly the `doubler` result. -/
theorem adder_self_eq_doubler :
    (3 : Int) ≤ 5 ∧ (5 : Int) ∣ 0 - 0 ∧
    el_curve_ops.verify ⟨0, 1, 5⟩ (el_point.affine 0 1) = true ∧
    (el_point.affine 0 1).adder (el_point.affine 0 1) 5 = el_point.affine 0 4 ∧
    (el_point.affine 0 1).adder (el_point.affine 0 1) 5 = (el_point.affine 0 1).doubler 0 5 := by
  decide

/-! ## 512 bits suffice for a 256-bit field -/

theorem ck512_of_fits {z : Int} (h1 : -(2 ^ 512) < z) (h2 : z < 2 ^ 512) : ck512 z = some z := by
  unfold ck512
  rw [if_pos ⟨h1, h2⟩]

/-- One step of a checked computation: a step that returns `z` may be replaced
by `z` in what follows. -/
theorem bind_step {α β : Type} {o : Option α} {z : α} {f : α → Option β} {r : Option β}
    (h : o = some z) (hf : f z = r) : (o >>= f) = r := by
  subst h
  exact hf

theorem ck512_tmod (z : Int) {m : Int} (hm : 0 < m) (hm2 : m < 2 ^ 256) :
    ck512 (z.tmod m) = some (z.tmod m) := by
  have h1 := neg_lt_tmod z hm
  have h2 := tmod_lt z hm
  exact ck512_of_fits (by omega) (by omega)

theorem mul_bounds {s t k : Int} (hs1 : -k ≤ s) (hs2 : s ≤ k) (ht1 : -k ≤ t) (ht2 : t ≤ k) :
    -(k * k) ≤ s * t ∧ s * t ≤ k * k := by
  have hk : 0 ≤ k := by omega
  constructor <;> nlinarith [mul_nonneg (sub_nonneg.2 hs2) (sub_nonneg.2 ht2),
    mul_nonneg (sub_nonneg.2 (neg_le.1 hs1)) (sub_nonneg.2 (neg_le.1 ht1)),
    mul_nonneg (sub_nonneg.2 hs2) (sub_nonneg.2 (neg_le.1 ht1)),
    mul_nonneg (sub_nonneg.2 (neg_le.1 hs1)) (sub_nonneg.2 ht2)]

theorem sq_field_bound {m : Int} (hm : 0 < m) (hm2 : m < 2 ^ 256) :
    (m - 1) * (m - 1) + 2 * m ≤ 2 ^ 512 - 1 := by
  have h : m ≤ 2 ^ 256 - 1 := by omega
  nlinarith

/-- The product of two remainders modulo `m < 2^256` is representable. -/
theorem ck512_tmod_mul_tmod (s t : Int) {m : Int} (hm : 0 < m) (hm2 : m < 2 ^ 256) :
    ck512 (s.tmod m * t.tmod m) = some (s.tmod m * t.tmod m) := by
  have hs1 := neg_lt_tmod s hm
  have hs2 := tmod_lt s hm
  have ht1 := neg_lt_tmod t hm
  have ht2 := tmod_lt t hm
  have hb := mul_bounds (k := m - 1) (by omega) (by omega) (by omega) (by omega)
    (s := s.tmod m) (t := t.tmod m)
  have hq := sq_field_bound hm hm2
  exact ck512_of_fits (by omega) (by omega)

theorem fix_sign512_eq {t m : Int} (h1 : -(2 ^ 512) < t + m) (h2 : t + m < 2 ^ 512) :
    fix_sign512 t m = some (if t < 0 then t + m else t) := by
  unfold fix_sign512
  split_ifs
  · exact ck512_of_fits h1 h2
  · rfl

theorem fix_sign512_tmod (z : Int) {m : Int} (hm : 0 < m) (hm2 : m < 2 ^ 256) :
    fix_sign512 (z.tmod m) m = some (if z.tmod m < 0 then z.tmod m + m else z.tmod m) := by
  have h1 := neg_lt_tmod z hm
  have h2 := tmod_lt z hm
  exact fix_sign512_eq (by omega) (by omega)

/-- The slope is computed without overflow, whatever the numerator and the
denominator. -/
theorem slope512_eq (num denom : Int) {m : Int} (hm : 0 < m) (hm2 : m < 2 ^ 256) :
    slope512 num denom m = some (((num.tmod m) * (denom.tmod m)).tmod m) := by
  unfold slope512
  refine bind_step (ck512_tmod num hm hm2) ?_
  refine bind_step (ck512_tmod denom hm hm2) ?_
  refine bind_step (ck512_tmod_mul_tmod num denom hm hm2) ?_
  exact ck512_tmod _ hm hm2

theorem ck_int_of_lt {n : Nat} (h : n < 2 ^ 31) : ck_int n = some n := by
  unfold ck_int
  rw [if_pos h]

theorem two_pow_le_field (bits : Nat) (hb : bits ≤ 256) : (2 : Int) ^ bits ≤ 2 ^ 256 :=
  pow_le_pow_right₀ (by norm_num) hb

/-- The loop of `modulo_power` never overflows for a modulus below `2^256`
and an exponent of at most 256 bits: the fixed-width loop returns the value of
the unbounded loop. -/
theorem modulo_power_loop512_eq (base : Int) {m : Int} (hm : 0 < m) (hm2 : m < 2 ^ 256) :
    ∀ (fuel bits : Nat) (e v a : Int) (counter : Nat), e < 2 ^ bits → bits ≤ 256 →
      -(2 ^ 512) < e → counter + bits < 2 ^ 31 →
      modulo_power_loop512 base m fuel e v a counter =
        some (modulo_power_loop base m fuel e v a counter) := by
  intro fuel
  induction fuel with
  | zero =>
    intro bits e v a counter _ _ _ _
    rfl
  | succ fuel ih =>
    intro bits e v a counter he hb hlo hc
    by_cases hk : 0 < e
    · have hfield := two_pow_le_field bits hb
      have hbits : 1 ≤ bits := by
        rcases Nat.eq_zero_or_pos bits with h0 | h0
        · subst h0
          simp at he
          omega
        · exact h0
      obtain ⟨k, rfl⟩ : ∃ k, bits = k + 1 := ⟨bits - 1, by omega⟩
      have hdiv := tdiv_two_of_nonneg (le_of_lt hk)
      have hmod := tmod_two_of_nonneg (le_of_lt hk)
      have hpow : (2 : Int) ^ (k + 1) = 2 ^ k * 2 := pow_succ 2 k
      simp only [modulo_power_loop512, modulo_power_loop, hk, if_true]
      refine bind_step
        (z := if counter = 0 then base.tmod m else ((v.tmod m) * (v.tmod m)).tmod m) ?_ ?_
      · split_ifs
        · exact ck512_tmod base hm hm2
        · refine bind_step (ck512_tmod v hm hm2) ?_
          refine bind_step (ck512_tmod v hm hm2) ?_
          refine bind_step (ck512_tmod_mul_tmod v v hm hm2) ?_
          exact ck512_tmod _ hm hm2
      refine bind_step (ck512_of_fits (z := e.tmod 2) (by rw [hmod]; omega)
        (by rw [hmod]; omega)) ?_
      refine bind_step
        (z := if e.tmod 2 = 1 then
          ((a.tmod m) * ((if counter = 0 then base.tmod m
            else ((v.tmod m) * (v.tmod m)).tmod m).tmod m)).tmod m else a) ?_ ?_
      · split_ifs
        all_goals first
          | rfl
          | exact bind_step (ck512_tmod a hm hm2) (bind_step (ck512_tmod _ hm hm2)
              (bind_step (ck512_tmod_mul_tmod _ _ hm hm2) (ck512_tmod _ hm hm2)))
      refine bind_step (ck512_of_fits (z := e.tdiv 2) (by rw [hdiv]; omega)
        (by rw [hdiv]; omega)) ?_
      refine bind_step (ck_int_of_lt (n := counter + 1) (by omega)) ?_
      exact ih k (e.tdiv 2) _ _ (counter + 1) (by rw [hdiv]; omega) (by omega)
        (by rw [hdiv]; omega) (by omega)
    · simp only [modulo_power_loop512, modulo_power_loop, hk, if_false]

theorem modulo_power_loop_of_nonpos (base m : Int) (fuel : Nat) (e v a : Int) (counter : Nat)
    (he : ¬ 0 < e) : modulo_power_loop base m fuel e v a counter = a := by
  cases fuel <;> simp [modulo_power_loop, he]

/-- For a positive modulus the value returned by `modulo_power` lies in
`[0, m]`, whatever the exponent. -/
theorem modulo_power_bounds (base e : Int) {m : Int} (hm : 0 < m) :
    0 ≤ modulo_power base e m ∧ modulo_power base e m ≤ m := by
  by_cases he : 0 < e
  · have hcast := Int.toNat_of_nonneg (le_of_lt he)
    have hr := modulo_power_range base e.toNat hm (Or.inr (by omega))
    rw [hcast] at hr
    omega
  · have h1 : modulo_power base e m = 1 := by
      unfold modulo_power
      rw [modulo_power_loop_of_nonpos _ _ _ _ _ _ _ he]
      simp
    omega

theorem modulo_power_loop_lower (base e : Int) {m : Int} (hm : 0 < m) :
    -m < modulo_power_loop base m e.toNat e 0 1 0 := by
  by_cases he : 0 < e
  · have hcast := Int.toNat_of_nonneg (le_of_lt he)
    have hr := modulo_power_loop_range base m hm e.toNat e.toNat 0 1 0 (le_refl _)
      (Or.inr (by omega))
    rw [hcast] at hr
    exact hr.1
  · rw [modulo_power_loop_of_nonpos _ _ _ _ _ _ _ he]
    omega

/-- For a modulus below `2^256` and an exponent below `2^256`, `modulo_power`
never overflows. -/
theorem modulo_power512_eq (base e : Int) {m : Int} (hm : 0 < m) (hm2 : m < 2 ^ 256)
    (he1 : -(2 ^ 512) < e) (he2 : e < 2 ^ 256) :
    modulo_power512 base e m = some (modulo_power base e m) := by
  have hlow := modulo_power_loop_lower base e hm
  unfold modulo_power512 modulo_power
  refine bind_step
    (modulo_power_loop512_eq base hm hm2 e.toNat 256 e 0 1 0 he2 (le_refl _) he1 (by norm_num)) ?_
  simp only
  split_ifs with hneg
  · exact ck512_of_fits (by omega) (by omega)
  · rfl

/-- For a modulus below `2^256`, `modulo_inverse` never overflows. -/
theorem modulo_inverse512_eq (v : Int) {m : Int} (hm : 0 < m) (hm2 : m < 2 ^ 256) :
    modulo_inverse512 v m = some (modulo_inverse v m) := by
  unfold modulo_inverse512 modulo_inverse
  refine bind_step (ck512_of_fits (z := m - 2) (by omega) (by omega)) ?_
  exact modulo_power512_eq v (m - 2) hm hm2 (by omega) (by omega)

theorem modulo_inverse_bounds (v : Int) {m : Int} (hm : 0 < m) :
    0 ≤ modulo_inverse v m ∧ modulo_inverse v m ≤ m :=
  modulo_power_bounds v (m - 2) hm

theorem fix_sign_range (t : Int) {m : Int} (hm : 0 < m) :
    0 ≤ (if t.tmod m < 0 then t.tmod m + m else t.tmod m) ∧
      (if t.tmod m < 0 then t.tmod m + m else t.tmod m) < m := by
  rw [tmod_normalize t hm]
  exact ⟨Int.emod_nonneg _ (by omega), Int.emod_lt_of_pos _ hm⟩

/-- The numerator of `doubler` is computed without overflow. -/
theorem doubler_num512_eq (x a : Int) {m : Int} (hm : 0 < m) (hm2 : m < 2 ^ 256)
    (ha0 : 0 ≤ a) (ha1 : a < m) :
    doubler_num512 x a m =
      some (if (3 * modulo_power x 2 m + a).tmod m < 0
        then (3 * modulo_power x 2 m + a).tmod m + m
        else (3 * modulo_power x 2 m + a).tmod m) := by
  have hp := modulo_power_bounds x 2 hm
  unfold doubler_num512
  refine bind_step (modulo_power512_eq x 2 hm hm2 (by norm_num) (by norm_num)) ?_
  refine bind_step (ck512_of_fits (z := 3 * modulo_power x 2 m) (by omega) (by omega)) ?_
  refine bind_step (ck512_of_fits (z := 3 * modulo_power x 2 m + a) (by omega) (by omega)) ?_
  refine bind_step (ck512_tmod _ hm hm2) ?_
  exact fix_sign512_tmod _ hm hm2

/-- The numerator of `adder` is computed without overflow. -/
theorem adder_num512_eq (y qy : Int) {m : Int} (hm : 0 < m) (hm2 : m < 2 ^ 256)
    (hy0 : 0 ≤ y) (hy1 : y < m) (hq0 : 0 ≤ qy) (hq1 : qy < m) :
    adder_num512 y qy m =
      some (if (qy - y).tmod m < 0 then (qy - y).tmod m + m else (qy - y).tmod m) := by
  unfold adder_num512
  refine bind_step (ck512_of_fits (z := qy - y) (by omega) (by omega)) ?_
  refine bind_step (ck512_tmod _ hm hm2) ?_
  exact fix_sign512_tmod _ hm hm2

/-- The new `x` of `doubler` is computed without overflow. -/
theorem doubler_newx512_eq (c x : Int) {m : Int} (hm : 0 < m) (hm2 : m < 2 ^ 256)
    (hc0 : -m < c) (hc1 : c < m) (hx0 : 0 ≤ x) (hx1 : x < m) :
    doubler_newx512 c x m =
      some (if (c * c - 2 * x).tmod m < 0 then (c * c - 2 * x).tmod m + m
        else (c * c - 2 * x).tmod m) := by
  have hb := mul_bounds (k := m - 1) (s := c) (t := c) (by omega) (by omega) (by omega)
    (by omega)
  have hq := sq_field_bound hm hm2
  unfold doubler_newx512
  refine bind_step (ck512_of_fits (z := c * c) (by omega) (by omega)) ?_
  refine bind_step (ck512_of_fits (z := 2 * x) (by omega) (by omega)) ?_
  refine bind_step (ck512_of_fits (z := c * c - 2 * x) (by omega) (by omega)) ?_
  refine bind_step (ck512_tmod _ hm hm2) ?_
  exact fix_sign512_tmod _ hm hm2

/-- The new `x` of `adder` is computed without overflow. -/
theorem adder_newx512_eq (c x qx : Int) {m : Int} (hm : 0 < m) (hm2 : m < 2 ^ 256)
    (hc0 : -m < c) (hc1 : c < m) (hx0 : 0 ≤ x) (hx1 : x < m) (hq0 : 0 ≤ qx) (hq1 : qx < m) :
    adder_newx512 c x qx m =
      some (if (c * c - x - qx).tmod m < 0 then (c * c - x - qx).tmod m + m
        else (c * c - x - qx).tmod m) := by
  have hb := mul_bounds (k := m - 1) (s := c) (t := c) (by omega) (by omega) (by omega)
    (by omega)
  have hq := sq_field_bound hm hm2
  unfold adder_newx512
  refine bind_step (ck512_of_fits (z := c * c) (by omega) (by omega)) ?_
  refine bind_step (ck512_of_fits (z := c * c - x) (by omega) (by omega)) ?_
  refine bind_step (ck512_of_fits (z := c * c - x - qx) (by omega) (by omega)) ?_
  refine bind_step (ck512_tmod _ hm hm2) ?_
  exact fix_sign512_tmod _ hm hm2

/-- The new `y` of `doubler` and `adder` is computed without overflow. -/
theorem newy512_eq (c x newx y : Int) {m : Int} (hm : 0 < m) (hm2 : m < 2 ^ 256)
    (hc0 : -m < c) (hc1 : c < m) (hx0 : 0 ≤ x) (hx1 : x < m) (hn0 : 0 ≤ newx)
    (hn1 : newx < m) (hy0 : 0 ≤ y) (hy1 : y < m) :
    newy512 c x newx y m =
      some (if (c * (x - newx) - y).tmod m < 0 then (c * (x - newx) - y).tmod m + m
        else (c * (x - newx) - y).tmod m) := by
  have hb := mul_bounds (k := m - 1) (s := c) (t := x - newx) (by omega) (by omega)
    (by omega) (by omega)
  have hq := sq_field_bound hm hm2
  unfold newy512
  refine bind_step (ck512_of_fits (z := x - newx) (by omega) (by omega)) ?_
  refine bind_step (ck512_of_fits (z := c * (x - newx)) (by omega) (by omega)) ?_
  refine bind_step (ck512_of_fits (z := c * (x - newx) - y) (by omega) (by omega)) ?_
  refine bind_step (ck512_tmod _ hm hm2) ?_
  exact fix_sign512_tmod _ hm hm2

/-- On an affine point with coordinates in `[0, m)`, for `m < 2^256` and `a`
in `[0, m)`, `doubler` never overflows. -/
theorem doubler512_eq (P : el_point) (a : Int) {m : Int} (hm : 0 < m) (hm2 : m < 2 ^ 256)
    (ha0 : 0 ≤ a) (ha1 : a < m) (hP : P.state = true) (hx0 : 0 ≤ P.x) (hx1 : P.x < m)
    (hy0 : 0 ≤ P.y) (hy1 : P.y < m) :
    P.doubler512 a m = some (P.doubler a m) := by
  simp only [el_point.doubler512, el_point.doubler, hP, Bool.not_true, Bool.false_eq_true,
    if_false]
  refine bind_step (doubler_num512_eq P.x a hm hm2 ha0 ha1) ?_
  refine bind_step (ck512_of_fits (z := 2 * P.y) (by omega) (by omega)) ?_
  refine bind_step (modulo_inverse512_eq _ hm hm2) ?_
  refine bind_step (slope512_eq _ _ hm hm2) ?_
  refine bind_step (doubler_newx512_eq _ P.x hm hm2 (neg_lt_tmod _ hm) (tmod_lt _ hm)
    hx0 hx1) ?_
  refine bind_step (newy512_eq _ P.x _ P.y hm hm2 (neg_lt_tmod _ hm) (tmod_lt _ hm)
    hx0 hx1 (fix_sign_range _ hm).1 (fix_sign_range _ hm).2 hy0 hy1) ?_
  rfl

/-- On two affine points with coordinates in `[0, m)`, for `m < 2^256`,
`adder` never overflows. -/
theorem adder512_eq (P Q : el_point) {m : Int} (hm : 0 < m) (hm2 : m < 2 ^ 256)
    (hP : P.state = true) (hx0 : 0 ≤ P.x) (hx1 : P.x < m) (hy0 : 0 ≤ P.y) (hy1 : P.y < m)
    (hQ : Q.state = true) (hqx0 : 0 ≤ Q.x) (hqx1 : Q.x < m) (hqy0 : 0 ≤ Q.y)
    (hqy1 : Q.y < m) :
    P.adder512 Q m = some (P.adder Q m) := by
  have hden := modulo_inverse_bounds (Q.x - P.x) hm
  simp only [el_point.adder512, el_point.adder, hP, hQ, Bool.not_true, Bool.false_eq_true,
    if_false]
  refine bind_step (adder_num512_eq P.y Q.y hm hm2 hy0 hy1 hqy0 hqy1) ?_
  refine bind_step (ck512_of_fits (z := Q.x - P.x) (by omega) (by omega)) ?_
  refine bind_step (modulo_inverse512_eq _ hm hm2) ?_
  refine bind_step (fix_sign512_eq (t := modulo_inverse (Q.x - P.x) m) (by omega) (by omega)) ?_
  refine bind_step (slope512_eq _ _ hm hm2) ?_
  refine bind_step (adder_newx512_eq _ P.x Q.x hm hm2 (neg_lt_tmod _ hm) (tmod_lt _ hm)
    hx0 hx1 hqx0 hqx1) ?_
  refine bind_step (newy512_eq _ P.x _ P.y hm hm2 (neg_lt_tmod _ hm) (tmod_lt _ hm)
    hx0 hx1 (fix_sign_range _ hm).1 (fix_sign_range _ hm).2 hy0 hy1) ?_
  rfl

/-- C20: for every modulus `m` with `0 < m < 2^256`, every `a` in `[0, m)` and
all affine points with coordinates in `[0, m)`, no intermediate value of
`doubler(a, m)` or `adder(q, m)`, the `modulo_power` and `modulo_inverse`
calls they make included, leaves the range of its type (magnitude below
`2^512` for `int512_t`): the fixed-width computations return exactly the
points the unbounded ones return. -/
theorem int512_suffices (m a : Int) (hm : 0 < m) (hm2 : m < 2 ^ 256) (ha : 0 ≤ a ∧ a < m)
    (P Q : el_point) (hP : P.state = true) (hPx : 0 ≤ P.x ∧ P.x < m)
    (hPy : 0 ≤ P.y ∧ P.y < m) (hQ : Q.state = true) (hQx : 0 ≤ Q.x ∧ Q.x < m)
    (hQy : 0 ≤ Q.y ∧ Q.y < m) :
    P.doubler512 a m = some (P.doubler a m) ∧
    P.adder512 Q m = some (P.adder Q m) ∧
    modulo_power512 P.x 2 m = some (modulo_power P.x 2 m) ∧
    modulo_inverse512 (2 * P.y) m = some (modulo_inverse (2 * P.y) m) ∧
    modulo_inverse512 (Q.x - P.x) m = some (modulo_inverse (Q.x - P.x) m) :=
  ⟨doubler512_eq P a hm hm2 ha.1 ha.2 hP hPx.1 hPx.2 hPy.1 hPy.2,
    adder512_eq P Q hm hm2 hP hPx.1 hPx.2 hPy.1 hPy.2 hQ hQx.1 hQx.2 hQy.1 hQy.2,
    modulo_power512_eq P.x 2 hm hm2 (by norm_num) (by norm_num),
    modulo_inverse512_eq _ hm hm2, modulo_inverse512_eq _ hm hm2⟩

/-- The secp256k1 field and generator point: doubling the generator and adding
the affine point `(1, 2)` to it never overflow 512 bits. -/
theorem int512_suffices_witness :
    (el_point.affine 0x79BE667EF9DCBBAC55A06295CE870B07029BFCDB2DCE28D959F2815B16F81798
        0x483ADA7726A3C4655DA4FBFC0E1108A8FD17B448A68554199C47D08FFB10D4B8).doubler512 0
        0xFFFFFFFFFFFFFFFFFFFFFFFFFFFFFFFFFFFFFFFFFFFFFFFFFFFFFFFEFFFFFC2F =
      some ((el_point.affine 0x79BE667EF9DCBBAC55A06295CE870B07029BFCDB2DCE28D959F2815B16F81798
        0x483ADA7726A3C4655DA4FBFC0E1108A8FD17B448A68554199C47D08FFB10D4B8).doubler 0
        0xFFFFFFFFFFFFFFFFFFFFFFFFFFFFFFFFFFFFFFFFFFFFFFFFFFFFFFFEFFFFFC2F) :=
  (int512_suffices 0xFFFFFFFFFFFFFFFFFFFFFFFFFFFFFFFFFFFFFFFFFFFFFFFFFFFFFFFEFFFFFC2F 0
    (by norm_num) (by norm_num) (by norm_num)
    (el_point.affine 0x79BE667EF9DCBBAC55A06295CE870B07029BFCDB2DCE28D959F2815B16F81798
      0x483ADA7726A3C4655DA4FBFC0E1108A8FD17B448A68554199C47D08FFB10D4B8)
    (el_point.affine 1 2) rfl (by norm_num [el_point.affine]) (by norm_num [el_point.affine])
    rfl (by norm_num [el_point.affine]) (by norm_num [el_point.affine])).1

set_option maxRecDepth 100000 in
/-- The range check is not vacuous: with a modulus above `2^256` a square can
leave the 512-bit range, and the fixed-width `modulo_power` then differs from
the unbounded one. -/
theorem modulo_power512_overflow :
    modulo_power512 (2 ^ 256) 2 (2 ^ 512 - 1) = none ∧
      modulo_power (2 ^ 256) 2 (2 ^ 512 - 1) = 1 := by
  decide

/-! ## The truncating program agrees with the unbounded one on a 256-bit field -/

theorem neg_tmod_eq (a m : Int) : (-a).tmod m = -(a.tmod m) := by
  simp [Int.tmod_def, Int.neg_tdiv]
  ring

/-- A representable value is stored unchanged. -/
theorem wrap512_of_fits {z : Int} (h1 : -(2 ^ 512) < z) (h2 : z < 2 ^ 512) : wrap512 z = z := by
  unfold wrap512
  rcases le_or_lt 0 z with h | h
  · rw [Int.tmod_eq_emod h (by norm_num)]
    exact Int.emod_eq_of_lt h h2
  · have h3 : (-z).tmod (2 ^ 512) = -z := by
      rw [Int.tmod_eq_emod (by omega) (by norm_num)]
      exact Int.emod_eq_of_lt (by omega) (by omega)
    rw [neg_tmod_eq] at h3
    omega

theorem mod512_of_ne (x : Int) {m : Int} (hm : m ≠ 0) : mod512 x m = some (x.tmod m) := by
  unfold mod512
  rw [if_neg hm]

theorem opt_some_bind {α β : Type} (z : α) (f : α → Option β) : (some z >>= f) = f z := rfl

theorem sq_word_bound {m : Int} (hm : 0 < m) (hm2 : m ≤ 2 ^ 256) :
    (m - 1) * (m - 1) < 2 ^ 512 := by
  nlinarith

/-- The product of two remainders modulo `m ≤ 2^256` is stored unchanged. -/
theorem wrap512_tmod_mul_tmod (s t : Int) {m : Int} (hm : 0 < m) (hm2 : m ≤ 2 ^ 256) :
    wrap512 (s.tmod m * t.tmod m) = s.tmod m * t.tmod m := by
  have hs1 := neg_lt_tmod s hm
  have hs2 := tmod_lt s hm
  have ht1 := neg_lt_tmod t hm
  have ht2 := tmod_lt t hm
  have hb := mul_bounds (k := m - 1) (by omega) (by omega) (by omega) (by omega)
    (s := s.tmod m) (t := t.tmod m)
  have hq := sq_word_bound hm hm2
  exact wrap512_of_fits (by omega) (by omega)

/-- For a modulus `0 < m ≤ 2^256` the loop of `modulo_power` on `int512_t`
neither throws nor truncates: it returns the value of the unbounded loop. -/
theorem modulo_power_loop_t_eq (base : Int) {m : Int} (hm : 0 < m) (hm2 : m ≤ 2 ^ 256) :
    ∀ (fuel : Nat) (e v a : Int) (counter : Nat),
      modulo_power_loop_t base m fuel e v a counter =
        some (modulo_power_loop base m fuel e v a counter) := by
  have hne : m ≠ 0 := by omega
  intro fuel
  induction fuel with
  | zero =>
    intro e v a counter
    rfl
  | succ fuel ih =>
    intro e v a counter
    by_cases hk : 0 < e
    · simp only [modulo_power_loop_t, modulo_power_loop, hk, if_true]
      refine bind_step
        (z := if counter = 0 then base.tmod m else ((v.tmod m) * (v.tmod m)).tmod m) ?_ ?_
      · split_ifs
        · exact mod512_of_ne base hne
        · simp only [mod512_of_ne _ hne, opt_some_bind, wrap512_tmod_mul_tmod _ _ hm hm2]
      refine bind_step
        (z := if e.tmod 2 = 1 then
          ((a.tmod m) * ((if counter = 0 then base.tmod m
            else ((v.tmod m) * (v.tmod m)).tmod m).tmod m)).tmod m else a) ?_ ?_
      · split_ifs
        all_goals first
          | rfl
          | simp only [mod512_of_ne _ hne, opt_some_bind, wrap512_tmod_mul_tmod _ _ hm hm2]
      exact ih _ _ _ _
    · simp only [modulo_power_loop_t, modulo_power_loop, hk, if_false]

/-- For a modulus `0 < m ≤ 2^256`, `modulo_power` on `int512_t` returns the
value of the unbounded `modulo_power`, whatever the base and the exponent. -/
theorem modulo_power_t_eq (base e : Int) {m : Int} (hm : 0 < m) (hm2 : m ≤ 2 ^ 256) :
    modulo_power_t base e m = some (modulo_power base e m) := by
  have hlow := modulo_power_loop_lower base e hm
  unfold modulo_power_t modulo_power
  refine bind_step (modulo_power_loop_t_eq base hm hm2 e.toNat e 0 1 0) ?_
  simp only
  split_ifs with hneg
  · rw [wrap512_of_fits (by omega) (by omega)]
  · rfl

/-- For a modulus `0 < m ≤ 2^256`, `modulo_inverse` on `int512_t` returns the
value of the unbounded `modulo_inverse`. -/
theorem modulo_inverse_t_eq (v : Int) {m : Int} (hm : 0 < m) (hm2 : m ≤ 2 ^ 256) :
    modulo_inverse_t v m = some (modulo_inverse v m) := by
  unfold modulo_inverse_t modulo_inverse
  rw [wrap512_of_fits (z := m - 2) (by omega) (by omega)]
  exact modulo_power_t_eq v (m - 2) hm hm2

/-- The sign fix after a remainder modulo `m ≤ 2^256` is stored unchanged. -/
theorem fix_wrap_tmod (t : Int) {m : Int} (hm : 0 < m) (hm2 : m ≤ 2 ^ 256) :
    (if t.tmod m < 0 then wrap512 (t.tmod m + m) else t.tmod m) =
      (if t.tmod m < 0 then t.tmod m + m else t.tmod m) := by
  have h1 := neg_lt_tmod t hm
  have h2 := tmod_lt t hm
  rw [wrap512_of_fits (z := t.tmod m + m) (by omega) (by omega)]

/-- On an affine point with coordinates in `[0, m)`, for `0 < m < 2^256` and
`a` in `[0, m)`, `doubler` on `int512_t` neither throws nor truncates. -/
theorem doubler_t_eq (P : el_point) (a : Int) {m : Int} (hm : 0 < m) (hm2 : m < 2 ^ 256)
    (ha0 : 0 ≤ a) (ha1 : a < m) (hP : P.state = true) (hx0 : 0 ≤ P.x) (hx1 : P.x < m)
    (hy0 : 0 ≤ P.y) (hy1 : P.y < m) :
    P.doubler_t a m = some (P.doubler a m) := by
  have hne : m ≠ 0 := by omega
  have hle : m ≤ 2 ^ 256 := by omega
  have hq := sq_field_bound hm hm2
  have hp := modulo_power_bounds P.x 2 hm
  have w1 : wrap512 (3 * modulo_power P.x 2 m) = 3 * modulo_power P.x 2 m :=
    wrap512_of_fits (by omega) (by omega)
  have w2 : wrap512 (3 * modulo_power P.x 2 m + a) = 3 * modulo_power P.x 2 m + a :=
    wrap512_of_fits (by omega) (by omega)
  have w3 : wrap512 (2 * P.y) = 2 * P.y := wrap512_of_fits (by omega) (by omega)
  have w4 : wrap512 (2 * P.x) = 2 * P.x := wrap512_of_fits (by omega) (by omega)
  have w5 : ∀ u : Int, wrap512 (u.tmod m * u.tmod m - 2 * P.x) = u.tmod m * u.tmod m - 2 * P.x := by
    intro u
    have h1 := neg_lt_tmod u hm
    have h2 := tmod_lt u hm
    have hb := mul_bounds (k := m - 1) (s := u.tmod m) (t := u.tmod m) (by omega) (by omega)
      (by omega) (by omega)
    exact wrap512_of_fits (by omega) (by omega)
  have w6 : ∀ t : Int, wrap512 (P.x - (if t.tmod m < 0 then t.tmod m + m else t.tmod m)) =
      P.x - (if t.tmod m < 0 then t.tmod m + m else t.tmod m) := by
    intro t
    have hr := fix_sign_range t hm
    exact wrap512_of_fits (by omega) (by omega)
  have w7 : ∀ u t : Int,
      wrap512 (u.tmod m * (P.x - (if t.tmod m < 0 then t.tmod m + m else t.tmod m))) =
        u.tmod m * (P.x - (if t.tmod m < 0 then t.tmod m + m else t.tmod m)) := by
    intro u t
    have hr := fix_sign_range t hm
    have h1 := neg_lt_tmod u hm
    have h2 := tmod_lt u hm
    have hb := mul_bounds (k := m - 1) (s := u.tmod m)
      (t := P.x - (if t.tmod m < 0 then t.tmod m + m else t.tmod m)) (by omega) (by omega)
      (by omega) (by omega)
    exact wrap512_of_fits (by omega) (by omega)
  have w8 : ∀ u t : Int,
      wrap512 (u.tmod m * (P.x - (if t.tmod m < 0 then t.tmod m + m else t.tmod m)) - P.y) =
        u.tmod m * (P.x - (if t.tmod m < 0 then t.tmod m + m else t.tmod m)) - P.y := by
    intro u t
    have hr := fix_sign_range t hm
    have h1 := neg_lt_tmod u hm
    have h2 := tmod_lt u hm
    have hb := mul_bounds (k := m - 1) (s := u.tmod m)
      (t := P.x - (if t.tmod m < 0 then t.tmod m + m else t.tmod m)) (by omega) (by omega)
      (by omega) (by omega)
    exact wrap512_of_fits (by omega) (by omega)
  simp only [el_point.doubler_t, el_point.doubler, hP, Bool.not_true, Bool.false_eq_true,
    if_false, modulo_power_t_eq _ _ hm hle, modulo_inverse_t_eq _ hm hle, mod512_of_ne _ hne,
    opt_some_bind, w1, w2, w3, w4, fix_wrap_tmod _ hm hle, wrap512_tmod_mul_tmod _ _ hm hle,
    w5, w6, w7, w8]

/-- On two affine points with coordinates in `[0, m)`, for `0 < m < 2^256`,
`adder` on `int512_t` neither throws nor truncates. -/
theorem adder_t_eq (P Q : el_point) {m : Int} (hm : 0 < m) (hm2 : m < 2 ^ 256)
    (hP : P.state = true) (hx0 : 0 ≤ P.x) (hx1 : P.x < m) (hy0 : 0 ≤ P.y) (hy1 : P.y < m)
    (hQ : Q.state = true) (hqx0 : 0 ≤ Q.x) (hqx1 : Q.x < m) (hqy0 : 0 ≤ Q.y)
    (hqy1 : Q.y < m) :
    P.adder_t Q m = some (P.adder Q m) := by
  have hne : m ≠ 0 := by omega
  have hle : m ≤ 2 ^ 256 := by omega
  have hq := sq_field_bound hm hm2
  have hden := modulo_inverse_bounds (Q.x - P.x) hm
  have w1 : wrap512 (Q.y - P.y) = Q.y - P.y := wrap512_of_fits (by omega) (by omega)
  have w2 : wrap512 (Q.x - P.x) = Q.x - P.x := wrap512_of_fits (by omega) (by omega)
  have w3 : wrap512 (modulo_inverse (Q.x - P.x) m + m) = modulo_inverse (Q.x - P.x) m + m :=
    wrap512_of_fits (by omega) (by omega)
  have w4 : ∀ u : Int, wrap512 (u.tmod m * u.tmod m - P.x) = u.tmod m * u.tmod m - P.x := by
    intro u
    have h1 := neg_lt_tmod u hm
    have h2 := tmod_lt u hm
    have hb := mul_bounds (k := m - 1) (s := u.tmod m) (t := u.tmod m) (by omega) (by omega)
      (by omega) (by omega)
    exact wrap512_of_fits (by omega) (by omega)
  have w5 : ∀ u : Int,
      wrap512 (u.tmod m * u.tmod m - P.x - Q.x) = u.tmod m * u.tmod m - P.x - Q.x := by
    intro u
    have h1 := neg_lt_tmod u hm
    have h2 := tmod_lt u hm
    have hb := mul_bounds (k := m - 1) (s := u.tmod m) (t := u.tmod m) (by omega) (by omega)
      (by omega) (by omega)
    exact wrap512_of_fits (by omega) (by omega)
  have w6 : ∀ t : Int, wrap512 (P.x - (if t.tmod m < 0 then t.tmod m + m else t.tmod m)) =
      P.x - (if t.tmod m < 0 then t.tmod m + m else t.tmod m) := by
    intro t
    have hr := fix_sign_range t hm
    exact wrap512_of_fits (by omega) (by omega)
  have w7 : ∀ u t : Int,
      wrap512 (u.tmod m * (P.x - (if t.tmod m < 0 then t.tmod m + m else t.tmod m))) =
        u.tmod m * (P.x - (if t.tmod m < 0 then t.tmod m + m else t.tmod m)) := by
    intro u t
    have hr := fix_sign_range t hm
    have h1 := neg_lt_tmod u hm
    have h2 := tmod_lt u hm
    have hb := mul_bounds (k := m - 1) (s := u.tmod m)
      (t := P.x - (if t.tmod m < 0 then t.tmod m + m else t.tmod m)) (by omega) (by omega)
      (by omega) (by omega)
    exact wrap512_of_fits (by omega) (by omega)
  have w8 : ∀ u t : Int,
      wrap512 (u.tmod m * (P.x - (if t.tmod m < 0 then t.tmod m + m else t.tmod m)) - P.y) =
        u.tmod m * (P.x - (if t.tmod m < 0 then t.tmod m + m else t.tmod m)) - P.y := by
    intro u t
    have hr := fix_sign_range t hm
    have h1 := neg_lt_tmod u hm
    have h2 := tmod_lt u hm
    have hb := mul_bounds (k := m - 1) (s := u.tmod m)
      (t := P.x - (if t.tmod m < 0 then t.tmod m + m else t.tmod m)) (by omega) (by omega)
      (by omega) (by omega)
    exact wrap512_of_fits (by omega) (by omega)
  simp only [el_point.adder_t, el_point.adder, hP, hQ, Bool.not_true, Bool.false_eq_true,
    if_false, modulo_inverse_t_eq _ hm hle, mod512_of_ne _ hne, opt_some_bind, w1, w2, w3,
    fix_wrap_tmod _ hm hle, wrap512_tmod_mul_tmod _ _ hm hle, w4, w5, w6, w7, w8]

theorem wide_prime_pred : wide_prime - 1 = 3 * 2 ^ 276 := by
  unfold wide_prime
  norm_num

/-- A power of an integer modulo `p` read in `ZMod p` through `modulo_power`. -/
theorem zmod_pow_eq_one_iff (p : Nat) (hp : 2 ≤ p) (a : Int) (n : Nat) :
    ((a : ZMod p)) ^ n = 1 ↔ modulo_power a (n : Int) p = 1 := by
  have h2 : (2 : Int) ≤ (p : Int) := by exact_mod_cast hp
  rw [modulo_power_natCast a n h2]
  have h1 : ((a : ZMod p)) ^ n = ((a ^ n : Int) : ZMod p) := by push_cast; rfl
  have h3 : (1 : ZMod p) = ((1 : Int) : ZMod p) := by push_cast; rfl
  rw [h1, h3, ZMod.intCast_eq_intCast_iff, Int.ModEq,
    Int.emod_eq_of_lt (show (0 : Int) ≤ 1 by norm_num) (show (1 : Int) < (p : Int) by omega)]

set_option maxRecDepth 100000 in
/-- The number `3 * 2^276 + 1` is prime, by the Lucas test with base `19`. -/
theorem wide_prime_prime : Nat.Prime wide_prime := by
  have h2 : 2 ≤ wide_prime := by unfold wide_prime; norm_num
  refine lucas_primality wide_prime ((19 : Int) : ZMod wide_prime) ?_ ?_
  · rw [zmod_pow_eq_one_iff wide_prime h2]
    decide
  · intro q hq hdvd
    rw [wide_prime_pred] at hdvd
    have hcases : q = 3 ∨ q = 2 := by
      rcases (Nat.Prime.dvd_mul hq).1 hdvd with h | h
      · left
        exact (Nat.prime_dvd_prime_iff_eq hq Nat.prime_three).1 h
      · right
        exact (Nat.prime_dvd_prime_iff_eq hq Nat.prime_two).1 (hq.dvd_of_dvd_pow h)
    rcases hcases with rfl | rfl
    · rw [Ne, zmod_pow_eq_one_iff wide_prime h2]
      decide
    · rw [Ne, zmod_pow_eq_one_iff wide_prime h2]
      decide

/-! ## Modular exponentiation and inversion on `int512_t` -/

/-- C1 (amended): for every integer `base` (negative values included), every
exponent `e ≥ 0` and every modulus `m` with `2 ≤ m ≤ 2^256`, `modulo_power`
on `int512_t` returns the residue of `base ^ e` modulo `m`: the value lies in
`[0, m)`, is congruent to `base ^ e`, and is `base ^ e % m`. -/
theorem modulo_power_t_correct (base e m : Int) (he : 0 ≤ e) (hm : 2 ≤ m)
    (hm2 : m ≤ 2 ^ 256) :
    ∃ r : Int, modulo_power_t base e m = some r ∧ 0 ≤ r ∧ r < m ∧
      r ≡ base ^ e.toNat [ZMOD m] ∧ r = base ^ e.toNat % m := by
  obtain ⟨h0, h1, h2, h3⟩ := modulo_power_correct base e m he hm
  exact ⟨modulo_power base e m, modulo_power_t_eq base e (by omega) hm2, h0, h1, h2, h3⟩

set_option maxRecDepth 100000 in
/-- The worked example of the source comment on `int512_t`:
`modulo_power(5, 117, 19)` is `1`. -/
theorem modulo_power_t_correct_witness :
    modulo_power_t 5 117 19 = some 1 ∧
    ∃ r : Int, modulo_power_t 5 117 19 = some r ∧ 0 ≤ r ∧ r < 19 ∧
      r ≡ 5 ^ (117 : Int).toNat [ZMOD 19] ∧ r = 5 ^ (117 : Int).toNat % 19 :=
  ⟨by decide, modulo_power_t_correct 5 117 19 (by decide) (by decide) (by norm_num)⟩

set_option maxRecDepth 100000 in
/-- C1 (counterexample): with the modulus `2^256 + 1`, base `2^256` and
exponent `2`, the square `2^512` of the residue `2^256` does not fit
`int512_t` and is stored as `0`, so `modulo_power` returns `0`, while
`(2^256)^2` is congruent to `1` modulo `2^256 + 1`. -/
theorem modulo_power_t_wrong :
    (0 : Int) ≤ 2 ∧ (2 : Int) ≤ 2 ^ 256 + 1 ∧ (2 : Int) ^ 256 + 1 < 2 ^ 512 ∧
    modulo_power_t (2 ^ 256) 2 (2 ^ 256 + 1) = some 0 ∧
    ((2 : Int) ^ 256) ^ (2 : Int).toNat % (2 ^ 256 + 1) = 1 := by
  decide

/-- C2 (amended): for every prime `p < 2^256` and every integer `a` not
divisible by `p` (negative values included), `modulo_inverse` on `int512_t`
returns `r` with `0 ≤ r < p` and `r * a ≡ 1 (mod p)`. -/
theorem modulo_inverse_t_correct (p : Nat) (hp : p.Prime) (hp2 : (p : Int) < 2 ^ 256)
    (a : Int) (ha : ¬ (p : Int) ∣ a) :
    ∃ r : Int, modulo_inverse_t a p = some r ∧ 0 ≤ r ∧ r < p ∧ r * a ≡ 1 [ZMOD p] := by
  have hp0 : (0 : Int) < (p : Int) := by exact_mod_cast hp.pos
  have h2Z : (2 : Int) ≤ (p : Int) := by exact_mod_cast hp.two_le
  exact ⟨modulo_inverse a p, modulo_inverse_t_eq a hp0 (by omega),
    (modulo_inverse_range a h2Z).1, (modulo_inverse_range a h2Z).2,
    modulo_inverse_mul p hp a ha⟩

set_option maxRecDepth 100000 in
/-- The inverse of `-3` modulo `7` on `int512_t` is `2`. -/
theorem modulo_inverse_t_correct_witness :
    modulo_inverse_t (-3) 7 = some 2 ∧
    ∃ r : Int, modulo_inverse_t (-3) ((7 : Nat) : Int) = some r ∧ 0 ≤ r ∧ r < ((7 : Nat) : Int) ∧
      r * (-3) ≡ 1 [ZMOD ((7 : Nat) : Int)] :=
  ⟨by decide, modulo_inverse_t_correct 7 (by norm_num) (by norm_num) (-3) (by decide)⟩

set_option maxRecDepth 100000 in
/-- C2 (counterexample): modulo the prime `3 * 2^276 + 1`, which does not
divide `3`, squares of residues exceed 512 bits and are truncated, and the
value `modulo_inverse` returns for `3` is not an inverse of `3`. -/
theorem modulo_inverse_t_wrong :
    Nat.Prime wide_prime ∧ ¬ ((wide_prime : Nat) : Int) ∣ 3 ∧
    modulo_inverse_t 3 wide_prime =
      some 93028993264061225161363313189937192279347356477022603328512588485183899787023070186 ∧
    ¬ (93028993264061225161363313189937192279347356477022603328512588485183899787023070186 * 3
      ≡ 1 [ZMOD ((wide_prime : Nat) : Int)]) :=
  ⟨wide_prime_prime, by decide, by decide, by decide⟩

/-! ## Doubling and addition on `int512_t` -/

/-- C4 (amended): for every prime `p` with `2 < p < 2^256`, every `a` in
`[0, p)` and every affine point `(x, y)` with coordinates in `[0, p)` and `y`
not divisible by `p`, `doubler(a, p)` on `int512_t` leaves the point affine
with coordinates `x'`, `y'` in `[0, p)`; the quotient `(3 x^2 + a) / (2 y)`
exists in `Z/pZ` and is unique, and for that quotient `c` the new coordinates
satisfy `x' ≡ c^2 - 2 x` and `y' ≡ c (x - x') - y` modulo `p`. -/
theorem doubler_t_correct (p : Nat) (hp : p.Prime) (hp2 : 2 < p) (hpw : (p : Int) < 2 ^ 256)
    (a x y : Int) (ha : 0 ≤ a ∧ a < p) (hx : 0 ≤ x ∧ x < p) (hy : 0 ≤ y ∧ y < p)
    (hyn : ¬ (p : Int) ∣ y) :
    ∃ R : el_point, (el_point.affine x y).doubler_t a p = some R ∧ R.state = true ∧
      0 ≤ R.x ∧ R.x < p ∧ 0 ≤ R.y ∧ R.y < p ∧
      (∃ c : Int, 0 ≤ c ∧ c < p ∧ c * (2 * y) ≡ 3 * x ^ 2 + a [ZMOD p]) ∧
      (∀ c d : Int, c * (2 * y) ≡ 3 * x ^ 2 + a [ZMOD p] →
        d * (2 * y) ≡ 3 * x ^ 2 + a [ZMOD p] → c ≡ d [ZMOD p]) ∧
      (∀ c : Int, c * (2 * y) ≡ 3 * x ^ 2 + a [ZMOD p] →
        R.x ≡ c ^ 2 - 2 * x [ZMOD p] ∧ R.y ≡ c * (x - R.x) - y [ZMOD p]) := by
  have hp0 : (0 : Int) < (p : Int) := by exact_mod_cast hp.pos
  exact ⟨(el_point.affine x y).doubler a p,
    doubler_t_eq (el_point.affine x y) a hp0 hpw ha.1 ha.2 rfl hx.1 hx.2 hy.1 hy.2,
    doubler_affine_spec p hp hp2 a x y hyn⟩

set_option maxRecDepth 100000 in
/-- Doubling `(5, 1)` on `y^2 = x^3 + 2 x + 2` modulo `17` on `int512_t` gives
`(6, 3)`. -/
theorem doubler_t_correct_witness :
    (el_point.affine 5 1).doubler_t 2 17 = some (el_point.affine 6 3) ∧
    ∃ R : el_point, (el_point.affine 5 1).doubler_t 2 ((17 : Nat) : Int) = some R ∧
      R.state = true ∧ 0 ≤ R.x ∧ R.x < ((17 : Nat) : Int) ∧ 0 ≤ R.y ∧ R.y < ((17 : Nat) : Int) ∧
      (∃ c : Int, 0 ≤ c ∧ c < ((17 : Nat) : Int) ∧
        c * (2 * 1) ≡ 3 * 5 ^ 2 + 2 [ZMOD ((17 : Nat) : Int)]) ∧
      (∀ c d : Int, c * (2 * 1) ≡ 3 * 5 ^ 2 + 2 [ZMOD ((17 : Nat) : Int)] →
        d * (2 * 1) ≡ 3 * 5 ^ 2 + 2 [ZMOD ((17 : Nat) : Int)] → c ≡ d [ZMOD ((17 : Nat) : Int)]) ∧
      (∀ c : Int, c * (2 * 1) ≡ 3 * 5 ^ 2 + 2 [ZMOD ((17 : Nat) : Int)] →
        R.x ≡ c ^ 2 - 2 * 5 [ZMOD ((17 : Nat) : Int)] ∧
        R.y ≡ c * (5 - R.x) - 1 [ZMOD ((17 : Nat) : Int)]) :=
  ⟨by decide, doubler_t_correct 17 (by norm_num) (by norm_num) (by norm_num) 2 5 1
    (by decide) (by decide) (by decide) (by decide)⟩

set_option maxRecDepth 100000 in
/-- C4 (counterexample): two inputs on which `doubler` leaves an `x` that is
not `c^2 - 2 x` for the quotient `c`.  Modulo `17` with `a = 2` and the point
`(2^511, 1)`, the product `2 * x = 2^512` is stored as `0`; the quotient is
`12` and the new `x` is `8`, not `12^2 - 2 * 2^511 ≡ 7`.  Modulo the prime
`3 * 2^276 + 1` with `a = 2` and the reduced point `(1, 2)`, products of
residues are truncated. -/
theorem doubler_t_wrong :
    (Nat.Prime 17 ∧ ¬ (17 : Int) ∣ 1 ∧
      (el_point.affine (2 ^ 511) 1).doubler_t 2 17 = some (el_point.affine 8 6) ∧
      (12 : Int) * (2 * 1) ≡ 3 * (2 ^ 511) ^ 2 + 2 [ZMOD 17] ∧
      ¬ ((8 : Int) ≡ 12 ^ 2 - 2 * 2 ^ 511 [ZMOD 17])) ∧
    (Nat.Prime wide_prime ∧ ¬ ((wide_prime : Nat) : Int) ∣ 2 ∧
      (el_point.affine 1 2).doubler_t 2 wide_prime =
        some (el_point.affine ((wide_prime : Int) - 2) ((wide_prime : Int) - 2)) ∧
      (273187812969243150598049330647057346246588461741707120176036120119533415106982445058 : Int)
        * (2 * 2) ≡ 3 * 1 ^ 2 + 2 [ZMOD ((wide_prime : Nat) : Int)] ∧
      ¬ (((wide_prime : Int) - 2) ≡
        273187812969243150598049330647057346246588461741707120176036120119533415106982445058 ^ 2
          - 2 * 1 [ZMOD ((wide_prime : Nat) : Int)])) :=
  ⟨⟨by norm_num, by decide, by decide, by decide, by decide⟩,
    ⟨wide_prime_prime, by decide, by decide, by decide, by decide⟩⟩

/-- C5 (amended): for every prime `p < 2^256` and all affine points `(x, y)`
and `(qx, qy)` with coordinates in `[0, p)` and `qx - x` not divisible by `p`,
`adder` on `int512_t` leaves the first point affine with coordinates `x'`,
`y'` in `[0, p)`; the quotient `(qy - y) / (qx - x)` exists in `Z/pZ` and is
unique, and for that quotient `c` the new coordinates satisfy
`x' ≡ c^2 - x - qx` and `y' ≡ c (x - x') - y` modulo `p`. -/
theorem adder_t_correct (p : Nat) (hp : p.Prime) (hpw : (p : Int) < 2 ^ 256)
    (x y qx qy : Int) (hx : 0 ≤ x ∧ x < p) (hy : 0 ≤ y ∧ y < p) (hqx : 0 ≤ qx ∧ qx < p)
    (hqy : 0 ≤ qy ∧ qy < p) (hne : ¬ (p : Int) ∣ qx - x) :
    ∃ R : el_point, (el_point.affine x y).adder_t (el_point.affine qx qy) p = some R ∧
      R.state = true ∧ 0 ≤ R.x ∧ R.x < p ∧ 0 ≤ R.y ∧ R.y < p ∧
      (∃ c : Int, 0 ≤ c ∧ c < p ∧ c * (qx - x) ≡ qy - y [ZMOD p]) ∧
      (∀ c d : Int, c * (qx - x) ≡ qy - y [ZMOD p] →
        d * (qx - x) ≡ qy - y [ZMOD p] → c ≡ d [ZMOD p]) ∧
      (∀ c : Int, c * (qx - x) ≡ qy - y [ZMOD p] →
        R.x ≡ c ^ 2 - x - qx [ZMOD p] ∧ R.y ≡ c * (x - R.x) - y [ZMOD p]) := by
  have hp0 : (0 : Int) < (p : Int) := by exact_mod_cast hp.pos
  exact ⟨(el_point.affine x y).adder (el_point.affine qx qy) p,
    adder_t_eq (el_point.affine x y) (el_point.affine qx qy) hp0 hpw rfl hx.1 hx.2 hy.1 hy.2
      rfl hqx.1 hqx.2 hqy.1 hqy.2,
    adder_affine_spec p hp x y qx qy hne⟩

set_option maxRecDepth 100000 in
/-- Adding `(6, 3)` to `(5, 1)` on `y^2 = x^3 + 2 x + 2` modulo `17` on
`int512_t` gives `(10, 6)`. -/
theorem adder_t_correct_witness :
    (el_point.affine 5 1).adder_t (el_point.affine 6 3) 17 = some (el_point.affine 10 6) ∧
    ∃ R : el_point,
      (el_point.affine 5 1).adder_t (el_point.affine 6 3) ((17 : Nat) : Int) = some R ∧
      R.state = true ∧ 0 ≤ R.x ∧ R.x < ((17 : Nat) : Int) ∧ 0 ≤ R.y ∧ R.y < ((17 : Nat) : Int) ∧
      (∃ c : Int, 0 ≤ c ∧ c < ((17 : Nat) : Int) ∧ c * (6 - 5) ≡ 3 - 1 [ZMOD ((17 : Nat) : Int)]) ∧
      (∀ c d : Int, c * (6 - 5) ≡ 3 - 1 [ZMOD ((17 : Nat) : Int)] →
        d * (6 - 5) ≡ 3 - 1 [ZMOD ((17 : Nat) : Int)] → c ≡ d [ZMOD ((17 : Nat) : Int)]) ∧
      (∀ c : Int, c * (6 - 5) ≡ 3 - 1 [ZMOD ((17 : Nat) : Int)] →
        R.x ≡ c ^ 2 - 5 - 6 [ZMOD ((17 : Nat) : Int)] ∧
        R.y ≡ c * (5 - R.x) - 1 [ZMOD ((17 : Nat) : Int)]) :=
  ⟨by decide, adder_t_correct 17 (by norm_num) (by norm_num) 5 1 6 3 (by decide) (by decide)
    (by decide) (by decide) (by decide)⟩

set_option maxRecDepth 100000 in
/-- C5 (counterexample): two inputs on which `adder` leaves an `x` that is
not `c^2 - x - qx` for the quotient `c`.  Modulo `17`, for `(-2^511 - 3, 1)`
and `(2^511 + 14, 3)` the difference `qx - x` exceeds 512 bits; the quotient
is `2` and the new `x` is `6`, not `2^2 - x - qx ≡ 10`.  Modulo the prime
`3 * 2^276 + 1`, for the reduced points `(1, 2)` and `(0, 1)` the quotient is
`1` and the new `x` is `p - 1`, not `1^2 - 1 - 0 = 0`. -/
theorem adder_t_wrong :
    (Nat.Prime 17 ∧ ¬ (17 : Int) ∣ (2 ^ 511 + 14) - (-(2 ^ 511) - 3) ∧
      (el_point.affine (-(2 ^ 511) - 3) 1).adder_t (el_point.affine (2 ^ 511 + 14) 3) 17 =
        some (el_point.affine 6 16) ∧
      (2 : Int) * ((2 ^ 511 + 14) - (-(2 ^ 511) - 3)) ≡ 3 - 1 [ZMOD 17] ∧
      ¬ ((6 : Int) ≡ 2 ^ 2 - (-(2 ^ 511) - 3) - (2 ^ 511 + 14) [ZMOD 17])) ∧
    (Nat.Prime wide_prime ∧ ¬ ((wide_prime : Nat) : Int) ∣ 0 - 1 ∧
      (el_point.affine 1 2).adder_t (el_point.affine 0 1) wide_prime =
        some (el_point.affine ((wide_prime : Int) - 1) ((wide_prime : Int) - 2)) ∧
      (1 : Int) * (0 - 1) ≡ 1 - 2 [ZMOD ((wide_prime : Nat) : Int)] ∧
      ¬ (((wide_prime : Int) - 1) ≡ 1 ^ 2 - 1 - 0 [ZMOD ((wide_prime : Nat) : Int)])) :=
  ⟨⟨by norm_num, by decide, by decide, by decide, by decide⟩,
    ⟨wide_prime_prime, by decide, by decide!, by decide, by decide⟩⟩

/-! ## Curve membership and commutativity on `int512_t` -/

/-- C15 (amended): for every prime `p` with `2 < p < 2^256`, every `a` in
`[0, p)`, every integer `b` and every affine point `(x, y)` with coordinates
in `[0, p)`, `y` not divisible by `p` and `y^2 ≡ x^3 + a x + b (mod p)`, the
coordinates `(x', y')` left by `doubler(a, p)` on `int512_t` satisfy
`y'^2 ≡ x'^3 + a x' + b (mod p)`. -/
theorem doubler_t_preserves_curve (p : Nat) (hp : p.Prime) (hp2 : 2 < p)
    (hpw : (p : Int) < 2 ^ 256) (a b x y : Int) (ha : 0 ≤ a ∧ a < p) (hx : 0 ≤ x ∧ x < p)
    (hy : 0 ≤ y ∧ y < p) (hyn : ¬ (p : Int) ∣ y) (hE : y ^ 2 ≡ x ^ 3 + a * x + b [ZMOD p]) :
    ∃ R : el_point, (el_point.affine x y).doubler_t a p = some R ∧
      R.y ^ 2 ≡ R.x ^ 3 + a * R.x + b [ZMOD p] := by
  have hp0 : (0 : Int) < (p : Int) := by exact_mod_cast hp.pos
  exact ⟨(el_point.affine x y).doubler a p,
    doubler_t_eq (el_point.affine x y) a hp0 hpw ha.1 ha.2 rfl hx.1 hx.2 hy.1 hy.2,
    (doubler_on_curve p hp hp2 a b (el_point.affine x y) rfl (emod_ne_zero_of_not_dvd hyn)
      hE).1⟩

set_option maxRecDepth 100000 in
/-- Doubling the point `(5, 1)` of `y^2 = x^3 + 2 x + 2` modulo `17` on
`int512_t` gives `(6, 3)`, a point of the curve. -/
theorem doubler_t_preserves_curve_witness :
    (el_point.affine 5 1).doubler_t 2 17 = some (el_point.affine 6 3) ∧
    ∃ R : el_point, (el_point.affine 5 1).doubler_t 2 ((17 : Nat) : Int) = some R ∧
      R.y ^ 2 ≡ R.x ^ 3 + 2 * R.x + 2 [ZMOD ((17 : Nat) : Int)] :=
  ⟨by decide, doubler_t_preserves_curve 17 (by norm_num) (by norm_num) (by norm_num) 2 2 5 1
    (by decide) (by decide) (by decide) (by decide) (by decide)⟩

set_option maxRecDepth 100000 in
/-- C15 (counterexample): two points of a curve whose double computed by
`doubler` is off the curve.  On `y^2 = x^3 + 2 x + 2` modulo `17`, the point
`(2^511, 1)` is sent to `(8, 6)`, because `2 * x = 2^512` is stored as `0`.
On `y^2 = x^3 + 2 x + 1` modulo the prime `p = 3 * 2^276 + 1`, the reduced
point `(1, 2)` is sent to `(p - 2, p - 2)`, because products of residues are
truncated. -/
theorem doubler_t_leaves_curve :
    (Nat.Prime 17 ∧ ¬ (17 : Int) ∣ 1 ∧
      (1 : Int) ^ 2 ≡ (2 ^ 511) ^ 3 + 2 * 2 ^ 511 + 2 [ZMOD 17] ∧
      (el_point.affine (2 ^ 511) 1).doubler_t 2 17 = some (el_point.affine 8 6) ∧
      ¬ ((6 : Int) ^ 2 ≡ 8 ^ 3 + 2 * 8 + 2 [ZMOD 17])) ∧
    (Nat.Prime wide_prime ∧ ¬ ((wide_prime : Nat) : Int) ∣ 2 ∧
      (2 : Int) ^ 2 ≡ 1 ^ 3 + 2 * 1 + 1 [ZMOD ((wide_prime : Nat) : Int)] ∧
      (el_point.affine 1 2).doubler_t 2 wide_prime =
        some (el_point.affine ((wide_prime : Int) - 2) ((wide_prime : Int) - 2)) ∧
      ¬ (((wide_prime : Int) - 2) ^ 2 ≡
        ((wide_prime : Int) - 2) ^ 3 + 2 * ((wide_prime : Int) - 2) + 1
          [ZMOD ((wide_prime : Nat) : Int)])) :=
  ⟨⟨by norm_num, by decide, by decide, by decide, by decide⟩,
    ⟨wide_prime_prime, by decide, by decide, by decide!, by decide⟩⟩

/-- C16 (amended): for every prime `p < 2^256`, all integers `a`, `b` and all
affine points `P = (x, y)`, `Q = (qx, qy)` with coordinates in `[0, p)` that
satisfy the curve equation modulo `p` and have `qx - x` not divisible by `p`,
the coordinates `(x', y')` left in `P` by `P.adder(Q, p)` on `int512_t`
satisfy `y'^2 ≡ x'^3 + a x' + b (mod p)`. -/
theorem adder_t_preserves_curve (p : Nat) (hp : p.Prime) (hpw : (p : Int) < 2 ^ 256)
    (a b x y qx qy : Int) (hx : 0 ≤ x ∧ x < p) (hy : 0 ≤ y ∧ y < p) (hqx : 0 ≤ qx ∧ qx < p)
    (hqy : 0 ≤ qy ∧ qy < p) (hne : ¬ (p : Int) ∣ qx - x)
    (hEP : y ^ 2 ≡ x ^ 3 + a * x + b [ZMOD p])
    (hEQ : qy ^ 2 ≡ qx ^ 3 + a * qx + b [ZMOD p]) :
    ∃ R : el_point, (el_point.affine x y).adder_t (el_point.affine qx qy) p = some R ∧
      R.y ^ 2 ≡ R.x ^ 3 + a * R.x + b [ZMOD p] := by
  have hp0 : (0 : Int) < (p : Int) := by exact_mod_cast hp.pos
  exact ⟨(el_point.affine x y).adder (el_point.affine qx qy) p,
    adder_t_eq (el_point.affine x y) (el_point.affine qx qy) hp0 hpw rfl hx.1 hx.2 hy.1 hy.2
      rfl hqx.1 hqx.2 hqy.1 hqy.2,
    (adder_on_curve p hp a b (el_point.affine x y) (el_point.affine qx qy) rfl rfl
      (emod_ne_zero_of_not_dvd hne) hEP hEQ).1⟩

set_option maxRecDepth 100000 in
/-- Adding the points `(5, 1)` and `(6, 3)` of `y^2 = x^3 + 2 x + 2` modulo
`17` on `int512_t` gives `(10, 6)`, a point of the curve. -/
theorem adder_t_preserves_curve_witness :
    (el_point.affine 5 1).adder_t (el_point.affine 6 3) 17 = some (el_point.affine 10 6) ∧
    ∃ R : el_point,
      (el_point.affine 5 1).adder_t (el_point.affine 6 3) ((17 : Nat) : Int) = some R ∧
      R.y ^ 2 ≡ R.x ^ 3 + 2 * R.x + 2 [ZMOD ((17 : Nat) : Int)] :=
  ⟨by decide, adder_t_preserves_curve 17 (by norm_num) (by norm_num) 2 2 5 1 6 3 (by decide)
    (by decide) (by decide) (by decide) (by decide) (by decide) (by decide)⟩

set_option maxRecDepth 100000 in
/-- C16 (counterexample): two pairs of points of a curve whose sum computed
by `adder` is off the curve.  On `y^2 = x^3 + 2 x + 2` modulo `17`, the sum of
`(-2^511 - 3, 1)` and `(2^511 + 14, 3)` is computed as `(6, 16)`, because
`qx - x` exceeds 512 bits.  On `y^2 = x^3 + 2 x + 1` modulo the prime
`p = 3 * 2^276 + 1`, the sum of the reduced points `(1, 2)` and `(0, 1)` is
computed as `(p - 1, p - 2)`, because products of residues are truncated. -/
theorem adder_t_leaves_curve :
    (Nat.Prime 17 ∧ ¬ (17 : Int) ∣ (2 ^ 511 + 14) - (-(2 ^ 511) - 3) ∧
      (1 : Int) ^ 2 ≡ (-(2 ^ 511) - 3) ^ 3 + 2 * (-(2 ^ 511) - 3) + 2 [ZMOD 17] ∧
      (3 : Int) ^ 2 ≡ (2 ^ 511 + 14) ^ 3 + 2 * (2 ^ 511 + 14) + 2 [ZMOD 17] ∧
      (el_point.affine (-(2 ^ 511) - 3) 1).adder_t (el_point.affine (2 ^ 511 + 14) 3) 17 =
        some (el_point.affine 6 16) ∧
      ¬ ((16 : Int) ^ 2 ≡ 6 ^ 3 + 2 * 6 + 2 [ZMOD 17])) ∧
    (Nat.Prime wide_prime ∧ ¬ ((wide_prime : Nat) : Int) ∣ 0 - 1 ∧
      (2 : Int) ^ 2 ≡ 1 ^ 3 + 2 * 1 + 1 [ZMOD ((wide_prime : Nat) : Int)] ∧
      (1 : Int) ^ 2 ≡ 0 ^ 3 + 2 * 0 + 1 [ZMOD ((wide_prime : Nat) : Int)] ∧
      (el_point.affine 1 2).adder_t (el_point.affine 0 1) wide_prime =
        some (el_point.affine ((wide_prime : Int) - 1) ((wide_prime : Int) - 2)) ∧
      ¬ (((wide_prime : Int) - 2) ^ 2 ≡
        ((wide_prime : Int) - 1) ^ 3 + 2 * ((wide_prime : Int) - 1) + 1
          [ZMOD ((wide_prime : Nat) : Int)])) :=
  ⟨⟨by norm_num, by decide, by decide, by decide, by decide, by decide⟩,
    ⟨wide_prime_prime, by decide, by decide, by decide, by decide!, by decide⟩⟩

/-- C17 (amended): for every prime `p < 2^256` and all affine points `P`, `Q`
with coordinates in `[0, p)` whose `x` coordinates differ modulo `p`,
`P.adder(Q, p)` and `Q.adder(P, p)` on `int512_t` leave exactly the same `x`
and the same `y` (and both points affine). -/
theorem adder_t_comm_of_distinct_x (p : Nat) (hp : p.Prime) (hpw : (p : Int) < 2 ^ 256)
    (x y qx qy : Int) (hx : 0 ≤ x ∧ x < p) (hy : 0 ≤ y ∧ y < p) (hqx : 0 ≤ qx ∧ qx < p)
    (hqy : 0 ≤ qy ∧ qy < p) (hne : ¬ (p : Int) ∣ qx - x) :
    ∃ R : el_point, (el_point.affine x y).adder_t (el_point.affine qx qy) p = some R ∧
      (el_point.affine qx qy).adder_t (el_point.affine x y) p = some R ∧ R.state = true := by
  have hp0 : (0 : Int) < (p : Int) := by exact_mod_cast hp.pos
  have h2Z : (2 : Int) ≤ (p : Int) := by exact_mod_cast hp.two_le
  have hcomm := (adder_comm_of_distinct_x p hp x y qx qy hne).2.2
  refine ⟨(el_point.affine x y).adder (el_point.affine qx qy) p,
    adder_t_eq (el_point.affine x y) (el_point.affine qx qy) hp0 hpw rfl hx.1 hx.2 hy.1 hy.2
      rfl hqx.1 hqx.2 hqy.1 hqy.2, ?_, adder_state _ _ _ rfl⟩
  rw [hcomm]
  exact adder_t_eq (el_point.affine qx qy) (el_point.affine x y) hp0 hpw rfl hqx.1 hqx.2
    hqy.1 hqy.2 rfl hx.1 hx.2 hy.1 hy.2

set_option maxRecDepth 100000 in
/-- Adding `(5, 1)` and `(6, 3)` modulo `17` on `int512_t` in either order
gives `(10, 6)`. -/
theorem adder_t_comm_of_distinct_x_witness :
    (el_point.affine 6 3).adder_t (el_point.affine 5 1) 17 = some (el_point.affine 10 6) ∧
    ∃ R : el_point,
      (el_point.affine 5 1).adder_t (el_point.affine 6 3) ((17 : Nat) : Int) = some R ∧
      (el_point.affine 6 3).adder_t (el_point.affine 5 1) ((17 : Nat) : Int) = some R ∧
      R.state = true :=
  ⟨by decide, adder_t_comm_of_distinct_x 17 (by norm_num) (by norm_num) 5 1 6 3 (by decide)
    (by decide) (by decide) (by decide) (by decide)⟩

set_option maxRecDepth 100000 in
/-- C17 (counterexample): two pairs of affine points with distinct `x`
modulo a prime for which the two orders of `adder` leave different points.
Modulo `17`, for `(-2^511 - 3, 1)` and `(2^511 + 14, 3)` one order gives
`(6, 16)` and the other `(6, 14)`.  Modulo the prime `p = 3 * 2^276 + 1`, for
the reduced points `(1, 2)` and `(0, 1)` one order gives `(p - 1, p - 2)` and
the other `(0, p - 1)`. -/
theorem adder_t_not_comm :
    (Nat.Prime 17 ∧ ¬ (17 : Int) ∣ (2 ^ 511 + 14) - (-(2 ^ 511) - 3) ∧
      (el_point.affine (-(2 ^ 511) - 3) 1).adder_t (el_point.affine (2 ^ 511 + 14) 3) 17 =
        some (el_point.affine 6 16) ∧
      (el_point.affine (2 ^ 511 + 14) 3).adder_t (el_point.affine (-(2 ^ 511) - 3) 1) 17 =
        some (el_point.affine 6 14)) ∧
    (Nat.Prime wide_prime ∧ ¬ ((wide_prime : Nat) : Int) ∣ 0 - 1 ∧
      (el_point.affine 1 2).adder_t (el_point.affine 0 1) wide_prime =
        some (el_point.affine ((wide_prime : Int) - 1) ((wide_prime : Int) - 2)) ∧
      (el_point.affine 0 1).adder_t (el_point.affine 1 2) wide_prime =
        some (el_point.affine 0 ((wide_prime : Int) - 1))) :=
  ⟨⟨by norm_num, by decide, by decide, by decide⟩,
    ⟨wide_prime_prime, by decide, by decide!, by decide!⟩⟩

/-! ## Scalar multiplication on `int512_t` -/

theorem some_ite {α : Type} (c : Prop) [Decidable c] (s t : α) :
    (if c then some s else some t) = some (if c then s else t) := by
  split_ifs <;> rfl

/-- With a non-zero modulus the loop of `modulo_power` on `int512_t` does not
throw. -/
theorem modulo_power_loop_t_some (base : Int) {m : Int} (hne : m ≠ 0) :
    ∀ (fuel : Nat) (e v a : Int) (counter : Nat),
      ∃ r : Int, modulo_power_loop_t base m fuel e v a counter = some r := by
  intro fuel
  induction fuel with
  | zero =>
    intro e v a counter
    exact ⟨a, rfl⟩
  | succ fuel ih =>
    intro e v a counter
    by_cases hk : 0 < e
    · simp only [modulo_power_loop_t, hk, if_true, mod512_of_ne _ hne, opt_some_bind,
        some_ite]
      exact ih _ _ _ _
    · exact ⟨a, by simp only [modulo_power_loop_t, hk, if_false]⟩

theorem modulo_power_t_some (base e : Int) {m : Int} (hne : m ≠ 0) :
    ∃ r : Int, modulo_power_t base e m = some r := by
  obtain ⟨a, ha⟩ := modulo_power_loop_t_some base hne e.toNat e 0 1 0
  exact ⟨_, by unfold modulo_power_t; rw [ha]; rfl⟩

theorem modulo_inverse_t_some (v : Int) {m : Int} (hne : m ≠ 0) :
    ∃ r : Int, modulo_inverse_t v m = some r :=
  modulo_power_t_some v _ hne

/-- With a non-zero modulus `doubler` on `int512_t` does not throw and leaves
`state` unchanged, whatever the magnitudes. -/
theorem doubler_t_state (P : el_point) (a : Int) {m : Int} (hne : m ≠ 0) :
    ∃ R : el_point, P.doubler_t a m = some R ∧ R.state = P.state := by
  cases hs : P.state with
  | false => exact ⟨P, by simp [el_point.doubler_t, hs], hs⟩
  | true =>
    obtain ⟨p2, h1⟩ := modulo_power_t_some P.x 2 hne
    obtain ⟨d, h2⟩ := modulo_inverse_t_some (wrap512 (2 * P.y)) hne
    simp only [el_point.doubler_t, hs, Bool.not_true, Bool.false_eq_true, if_false, h1, h2,
      mod512_of_ne _ hne, opt_some_bind]
    exact ⟨_, rfl, rfl⟩

/-- With a non-zero modulus `adder` on `int512_t` does not throw and leaves
`state = self.state || q.state`, whatever the magnitudes. -/
theorem adder_t_state (P Q : el_point) {m : Int} (hne : m ≠ 0) :
    ∃ R : el_point, P.adder_t Q m = some R ∧ R.state = (P.state || Q.state) := by
  cases hq : Q.state with
  | false => exact ⟨P, by simp [el_point.adder_t, hq], by simp⟩
  | true =>
    cases hs : P.state with
    | false =>
      exact ⟨⟨Q.x, Q.y, true⟩, by simp [el_point.adder_t, hq, hs], by simp⟩
    | true =>
      obtain ⟨d, h2⟩ := modulo_inverse_t_some (wrap512 (Q.x - P.x)) hne
      simp only [el_point.adder_t, hs, hq, Bool.not_true, Bool.false_eq_true, if_false, h2,
        mod512_of_ne _ hne, opt_some_bind, Bool.or_true]
      exact ⟨_, rfl, rfl⟩

/-- With a non-zero modulus the loop of `scalarMult` on `int512_t` does not
throw, and it returns an affine point as soon as `result` is affine or a turn
remains to be run. -/
theorem scalarMult_loop_t_state (a : Int) {m : Int} (hne : m ≠ 0) :
    ∀ (fuel : Nat) (privkey : Int) (v result : el_point), privkey.toNat ≤ fuel →
      v.state = true → (result.state = true ∨ 0 < privkey) →
      ∃ R : el_point, scalarMult_loop_t a m fuel privkey v result = some R ∧
        R.state = true := by
  intro fuel
  induction fuel with
  | zero =>
    intro privkey v result hfuel _ h
    have hk : ¬ 0 < privkey := by omega
    exact ⟨result, rfl, h.resolve_right hk⟩
  | succ fuel ih =>
    intro privkey v result hfuel hv h
    by_cases hk : 0 < privkey
    · obtain ⟨v1, hv1, hv1s⟩ := doubler_t_state v a hne
      rw [hv] at hv1s
      have hdiv := tdiv_two_of_nonneg (le_of_lt hk)
      have hmod := tmod_two_of_nonneg (le_of_lt hk)
      by_cases hodd : privkey.tmod 2 = 1
      · obtain ⟨r1, hr1, hr1s⟩ := adder_t_state result v1 hne
        rw [hv1s] at hr1s
        obtain ⟨R, hR, hRs⟩ := ih (privkey.tdiv 2) v1 r1 (by rw [hdiv]; omega) hv1s
          (Or.inl (by simpa using hr1s))
        exact ⟨R, by simp only [scalarMult_loop_t, hk, if_true, hv1, opt_some_bind, hodd, hr1,
          hR], hRs⟩
      · obtain ⟨R, hR, hRs⟩ := ih (privkey.tdiv 2) v1 result (by rw [hdiv]; omega) hv1s
          (Or.inr (by rw [hdiv]; rw [hmod] at hodd; omega))
        exact ⟨R, by simp only [scalarMult_loop_t, hk, if_true, hv1, opt_some_bind, hodd,
          if_false, hR], hRs⟩
    · exact ⟨result, by simp only [scalarMult_loop_t, hk, if_false], h.resolve_right hk⟩

/-- C8 (amended): for every curve `(a, b, p)` with `p ≠ 0`, every affine point
`P` and every scalar `n ≥ 1`, whatever the order of `P`, `scalarMult(n, P)`
does not throw and returns an affine point (`state = true`), never the point
at infinity; this holds of the program on `int512_t`, overflow included, and
of its unbounded model. -/
theorem scalarMult_t_never_infinity (c : el_curve_ops) (hmod : c.mod ≠ 0) (n : Int)
    (P : el_point) (hn : 1 ≤ n) (hP : P.state = true) :
    (∃ R : el_point, c.scalarMult_t n P = some R ∧ R.state = true) ∧
      (c.scalarMult n P).state = true := by
  refine ⟨?_, scalarMult_state_of_pos c n P hn hP⟩
  have hdiv := tdiv_two_of_nonneg (show (0 : Int) ≤ n by omega)
  have hmod2 := tmod_two_of_nonneg (show (0 : Int) ≤ n by omega)
  simp only [el_curve_ops.scalarMult_t, hP, Bool.not_true, Bool.false_eq_true, if_false]
  refine scalarMult_loop_t_state c.a hmod _ _ _ _ (le_refl _) hP ?_
  by_cases hodd : n.tmod 2 = 1
  · left
    rw [if_pos hodd]
    exact hP
  · right
    rw [hdiv]
    rw [hmod2] at hodd
    omega

set_option maxRecDepth 100000 in
/-- The point `(1, 0)` of order two on `y^2 = x^3 + 4` modulo `5`: doubling it
with `scalarMult` on `int512_t` gives the affine point `(3, 0)`. -/
theorem scalarMult_t_never_infinity_witness :
    el_curve_ops.scalarMult_t ⟨0, 4, 5⟩ 2 (el_point.affine 1 0) = some (el_point.affine 3 0) ∧
    ((∃ R : el_point, el_curve_ops.scalarMult_t ⟨0, 4, 5⟩ 2 (el_point.affine 1 0) = some R ∧
        R.state = true) ∧
      (el_curve_ops.scalarMult ⟨0, 4, 5⟩ 2 (el_point.affine 1 0)).state = true) :=
  ⟨by decide, scalarMult_t_never_infinity ⟨0, 4, 5⟩ (by decide) 2 (el_point.affine 1 0)
    (by decide) rfl⟩

set_option maxRecDepth 100000 in
/-- C8 (counterexample): on `y^2 = x^3 + 4` modulo `5` the point `(1, 0)` is a
point of the curve that passes `verify` and has order `2` in the
chord-and-tangent group of the curve, yet `scalarMult(2, (1, 0))` on
`int512_t` is the affine point `(3, 0)` and not the point at infinity. -/
theorem scalarMult_t_order_two_not_infinity :
    (∃ h : ((⟨0, 4, 5⟩ : el_curve_ops).weierstrass 5).toAffine.Nonsingular
        (((el_point.affine 1 0).x : Int) : ZMod 5) (((el_point.affine 1 0).y : Int) : ZMod 5),
      addOrderOf (WeierstrassCurve.Affine.Point.some h) = 2) ∧
    Nat.Prime 5 ∧ 3 < 5 ∧
    el_curve_ops.verify_t ⟨0, 4, 5⟩ (el_point.affine 1 0) = some true ∧
    el_curve_ops.scalarMult_t ⟨0, 4, 5⟩ 2 (el_point.affine 1 0) = some (el_point.affine 3 0) ∧
    (el_point.affine 3 0).state ≠ false := by
  obtain ⟨h, ho, _⟩ := scalarMult_order_two_not_infinity
  exact ⟨⟨h, ho⟩, by norm_num, by norm_num, by decide, by decide, by decide⟩

/-! ## Degenerate addition on `int512_t` -/

/-- C18 (amended): for every modulus `m` with `3 ≤ m < 2^256`,
`modulo_inverse(v, m)` on `int512_t` is `0` whenever `m` divides `v`; hence
for affine points `(x, y)` and `(qx, qy)` with coordinates in `[0, m)` and
`qx ≡ x (mod m)`, `adder` does not throw and leaves the first point affine
with coordinates `((-x - qx) mod m, (-y) mod m)`, both in `[0, m)` and
independent of `qy`, so adding a point to its negation never gives infinity;
and adding a point to itself gives a result that does not depend on the curve
parameter `a`, which for a prime `m`, `a` in `[0, m)` and `y` not divisible by
`m` is the `doubler` result exactly when `m` divides `3 x^2 + a`. -/
theorem adder_t_degenerate (m : Nat) (hm : 3 ≤ m) (hmw : (m : Int) < 2 ^ 256)
    (x y qx qy : Int) (hx : 0 ≤ x ∧ x < m) (hy : 0 ≤ y ∧ y < m) (hqx : 0 ≤ qx ∧ qx < m)
    (hqy : 0 ≤ qy ∧ qy < m) (hdvd : (m : Int) ∣ qx - x) :
    (∀ v : Int, (m : Int) ∣ v → modulo_inverse_t v m = some 0) ∧
    (el_point.affine x y).adder_t (el_point.affine qx qy) m =
      some ⟨(-x - qx) % m, (-y) % m, true⟩ ∧
    (0 ≤ (-x - qx) % (m : Int) ∧ (-x - qx) % (m : Int) < m) ∧
    (0 ≤ (-y) % (m : Int) ∧ (-y) % (m : Int) < m) ∧
    (∀ qz : Int, 0 ≤ qz → qz < m →
      (el_point.affine x y).adder_t (el_point.affine qx qz) m =
        (el_point.affine x y).adder_t (el_point.affine qx qy) m) ∧
    (∀ a : Int, 0 ≤ a → a < m → m.Prime → ¬ (m : Int) ∣ y →
      ((el_point.affine x y).adder_t (el_point.affine x y) m =
        (el_point.affine x y).doubler_t a m ↔ (m : Int) ∣ 3 * x ^ 2 + a)) := by
  have hm0 : (0 : Int) < (m : Int) := by omega
  obtain ⟨hinv, hadd, _, hrx, hry, hind, hself⟩ := adder_degenerate m hm x y qx qy hdvd
  have hagree : ∀ qz : Int, 0 ≤ qz → qz < m →
      (el_point.affine x y).adder_t (el_point.affine qx qz) m =
        some ((el_point.affine x y).adder (el_point.affine qx qz) m) := fun qz h0 h1 =>
    adder_t_eq (el_point.affine x y) (el_point.affine qx qz) hm0 hmw rfl hx.1 hx.2 hy.1 hy.2
      rfl hqx.1 hqx.2 h0 h1
  refine ⟨?_, ?_, hrx, hry, ?_, ?_⟩
  · intro v hv
    rw [modulo_inverse_t_eq v hm0 (by omega), hinv v hv]
  · rw [hagree qy hqy.1 hqy.2, hadd]
  · intro qz h0 h1
    rw [hagree qz h0 h1, hagree qy hqy.1 hqy.2, hind qz]
  · intro a ha0 ha1 hp hyn
    rw [adder_t_eq (el_point.affine x y) (el_point.affine x y) hm0 hmw rfl hx.1 hx.2 hy.1 hy.2
        rfl hx.1 hx.2 hy.1 hy.2,
      doubler_t_eq (el_point.affine x y) a hm0 hmw ha0 ha1 rfl hx.1 hx.2 hy.1 hy.2]
    rw [Option.some_inj]
    exact hself a hp hyn

set_option maxRecDepth 100000 in
/-- Adding `(5, 1)` to itself modulo `17` on `int512_t` gives `(7, 16)`, not
the `doubler` result `(6, 3)`. -/
theorem adder_t_degenerate_witness :
    (el_point.affine 5 1).adder_t (el_point.affine 5 1) 17 = some (el_point.affine 7 16) ∧
    (el_point.affine 5 1).doubler_t 2 17 = some (el_point.affine 6 3) ∧
    (el_point.affine 5 1).adder_t (el_point.affine 5 1) ((17 : Nat) : Int) =
      some ⟨(-5 - 5) % ((17 : Nat) : Int), (-1) % ((17 : Nat) : Int), true⟩ :=
  ⟨by decide, by decide,
    (adder_t_degenerate 17 (by norm_num) (by norm_num) 5 1 5 1 (by decide) (by decide)
      (by decide) (by decide) (by decide)).2.1⟩

set_option maxRecDepth 100000 in
/-- C18 (counterexample): three inputs.  On `y^2 = x^3 + 1` modulo `5` the
tangent at `(0, 1)` has slope `0`, so adding `(0, 1)` to itself with `adder`
gives `(0, 4)`, which is exactly the `doubler` result.  Modulo `17`, for
`x = qx = 2^511` the sum `-x - qx` does not fit 512 bits and `adder` leaves
`x = 0`, not `(-x - qx) mod 17 = 16`.  Modulo `2^512 - 1`, for the reduced
`x = qx = 2^512 - 2`, `adder` leaves `x = 3`, not `(-x - qx) mod m = 2`. -/
theorem adder_t_degenerate_wrong :
    ((3 : Int) ≤ 5 ∧ (5 : Int) ∣ 0 - 0 ∧
      el_curve_ops.verify_t ⟨0, 1, 5⟩ (el_point.affine 0 1) = some true ∧
      (el_point.affine 0 1).adder_t (el_point.affine 0 1) 5 = some (el_point.affine 0 4) ∧
      (el_point.affine 0 1).doubler_t 0 5 = some (el_point.affine 0 4)) ∧
    ((3 : Int) ≤ 17 ∧ (17 : Int) ∣ 2 ^ 511 - 2 ^ 511 ∧
      (el_point.affine (2 ^ 511) 1).adder_t (el_point.affine (2 ^ 511) 1) 17 =
        some (el_point.affine 0 16) ∧
      (-(2 ^ 511) - 2 ^ 511) % (17 : Int) = 16) ∧
    ((3 : Int) ≤ 2 ^ 512 - 1 ∧ (2 ^ 512 - 1 : Int) ∣ (2 ^ 512 - 2) - (2 ^ 512 - 2) ∧
      (el_point.affine (2 ^ 512 - 2) 1).adder_t (el_point.affine (2 ^ 512 - 2) 1)
          (2 ^ 512 - 1) =
        some (el_point.affine 3 (2 ^ 512 - 2)) ∧
      (-(2 ^ 512 - 2) - (2 ^ 512 - 2)) % (2 ^ 512 - 1 : Int) = 2) :=
  ⟨⟨by decide, by decide, by decide, by decide, by decide⟩,
    ⟨by decide, by decide, by decide, by decide⟩,
    ⟨by decide, by decide, by decide!, by decide⟩⟩
